/-
Verification of the eora question-answering pipeline.

This file gives a shallow embedding, in Lean 4, of the core components of the
repository (citation rendering in `telegram_bot.py`, sentence chunking in
`parser/text_processor.py`, the embedding cache in
`parser/embedding_manager.py`, the multi-strategy search in
`ai/search_engine.py`, and context assembly in `ai/context_builder.py`),
together with theorems settling the behavioural properties stated in the
design document.

Modelling conventions:
* Python floats are idealised as rationals (`ℚ`); the properties proved are
  order-theoretic and do not depend on rounding.
* External capabilities (the embedding service, the HNSW nearest-neighbour
  index, Unicode lowercasing, the keyword extractor whose final
  `list(set(...))` has unspecified iteration order in Python) are parameters
  ("oracles") of the model, exactly at the interface boundary drawn in the
  design document.
* Python dicts are modelled as association lists preserving insertion order,
  Python sets of seen texts as lists with membership tests.
* Fallible code returns `Except Unit`; an uncaught Python exception is
  `Except.error ()`.
-/
import Mathlib

namespace Eora

open scoped List

/-! ### Citation renderer (`telegram_bot.py`, `handle_message`, lines 137-179)

After the answer stream finishes, the handler runs
`re.findall(r"\[(\d+)\]", full_response)`, deduplicates the found numbers in
first-seen order, renumbers them sequentially from 1, resolves URLs through
the ordered source list by the original number, and rewrites the text with
`re.sub`.  The two scanners below implement exactly the semantics of Python's
`re.findall` / `re.sub` for the fixed pattern `\[(\d+)\]`: scanning is
left-to-right and non-overlapping; on a failed candidate the scan resumes at
the character after the opening bracket, which the one-character-at-a-time
state machine reproduces (the state holds the digits read since the most
recent pending opening bracket). -/

/-- One step of the `re.findall(r"\[(\d+)\]", s)` scan.  The first argument is
`none` while no candidate match is open, and `some ds` when an opening bracket
has been read followed by the (reversed) digits `ds`. -/
def find_citations_go : Option (List Char) → List Char → List (List Char)
  | _, [] => []
  | none, c :: rest =>
    if c = '[' then find_citations_go (some []) rest
    else find_citations_go none rest
  | some ds, c :: rest =>
    if c.isDigit then find_citations_go (some (c :: ds)) rest
    else if c = ']' ∧ ds ≠ [] then ds.reverse :: find_citations_go none rest
    else if c = '[' then find_citations_go (some []) rest
    else find_citations_go none rest

/-- `re.findall(r"\[(\d+)\]", s)`: every citation marker's digit group, in
order of appearance. -/
def find_citations (s : String) : List String :=
  (find_citations_go none s.toList).map (fun ds => String.mk ds)

/-- Python `int(...)` on a string of decimal digits. -/
def digits_to_nat (ds : List Char) : Nat :=
  ds.foldl (fun n c => n * 10 + (c.toNat - '0'.toNat)) 0

/-- The `unique_citations` loop: deduplicate, keeping first occurrences in
order of first appearance. -/
def unique_first_seen (citations : List String) : List String :=
  citations.foldl (fun acc c => if c ∈ acc then acc else acc ++ [c]) []

/-- A source entry produced by `ContextBuilder.extract_sources`. -/
structure Source where
  name : String
  url : String
deriving DecidableEq, Repr

/-- `citation_mapping = {old: i + 1 for i, old in enumerate(unique_citations)}`. -/
def citation_mapping_of (citations : List String) : List (String × Nat) :=
  (unique_first_seen citations).enum.map (fun p => (p.2, p.1 + 1))

/-- The `url_mapping` loop: for each `(old, new)` pair, if the original number
is in range `1 ≤ N ≤ len(sources)`, record the URL of the `N`-th source
(1-based) under the new number. -/
def url_mapping_of (cm : List (String × Nat)) (sources : List Source) : List (Nat × String) :=
  cm.foldl
    (fun um p =>
      let oldInt := digits_to_nat p.1.toList
      if 1 ≤ oldInt ∧ oldInt ≤ sources.length then
        um ++ [(p.2, (sources.getD (oldInt - 1) ⟨ "", ""⟩).url)]
      else um)
    []

/-- `replace_citation`: the replacement callback handed to `re.sub`.  A mapped
number with a URL becomes a markdown link `\[[new](url)]`, a mapped number
without URL becomes a plain `[new]`, an unmapped match is returned verbatim. -/
def replace_citation (cm : List (String × Nat)) (um : List (Nat × String))
    (ds : List Char) : String :=
  let old := String.mk ds
  match cm.lookup old with
  | some newNum =>
    match um.lookup newNum with
    | some url => "\\[[" ++ toString newNum ++ "](" ++ url ++ ")]"
    | none => "[" ++ toString newNum ++ "]"
  | none => "[" ++ old ++ "]"

/-- One step of `re.sub(r"\[(\d+)\]", repl, s)`: same scan as
`find_citations_go`, with non-matching text copied through verbatim. -/
def sub_citations_go (repl : List Char → String) : Option (List Char) → List Char → String
  | none, [] => ""
  | some ds, [] => "[" ++ String.mk ds.reverse
  | none, c :: rest =>
    if c = '[' then sub_citations_go repl (some []) rest
    else String.singleton c ++ sub_citations_go repl none rest
  | some ds, c :: rest =>
    if c.isDigit then sub_citations_go repl (some (c :: ds)) rest
    else if c = ']' ∧ ds ≠ [] then repl ds.reverse ++ sub_citations_go repl none rest
    else if c = '[' then
      ("[" ++ String.mk ds.reverse) ++ sub_citations_go repl (some []) rest
    else ("[" ++ String.mk ds.reverse ++ String.singleton c) ++ sub_citations_go repl none rest

/-- The citation post-processing of `handle_message` as one function from the
completed answer text and the ordered source list to the final rendered
text. -/
def process_citations (full_response : String) (sources : List Source) : String :=
  let citations := find_citations full_response
  let cm := citation_mapping_of citations
  let um := url_mapping_of cm sources
  sub_citations_go (replace_citation cm um) none full_response.toList

/-- The two-element source list of the renumbering scenario in the design
document. -/
def demo_sources : List Source := [⟨ "S1", "u1"⟩, ⟨ "S2", "u2"⟩]

/-! ### Chunker (`parser/text_processor.py`, `split_text`, lines 25-82)

The method normalises whitespace and calls `nltk.sent_tokenize`; per the
design document the sentence boundary detector is an external capability
treated as a pure function, so the model takes the resulting sentence list as
input.  The accumulation loop is translated verbatim: `current_length` is the
sum of the sentence lengths of the running chunk (the single spaces inserted
by `" ".join` are not counted), and on overflow the backward walk
`overlap_end` determines which tail of the closed chunk seeds the next one. -/

/-- Sum of the character lengths of a list of sentences (the value tracked by
`current_length`). -/
def sumLen (l : List String) : Nat := (l.map String.length).sum

/-- The backward walk `for j in range(len(current_chunk) - 1, -1, -1)`:
starting from index `j` with `acc` characters already accumulated from the
right, return the first index at which the accumulated suffix length reaches
`chunk_overlap`, and `0` if it never does. -/
def overlap_end_from (current : List String) (chunk_overlap : Nat) : Nat → Nat → Nat
  | 0, _ => 0
  | j + 1, acc =>
    let acc2 := acc + (current.getD (j + 1) "").length
    if chunk_overlap ≤ acc2 then j + 1 else overlap_end_from current chunk_overlap j acc2

/-- The index `overlap_end` computed when a chunk is closed. -/
def overlap_end (current : List String) (chunk_overlap : Nat) : Nat :=
  match current with
  | [] => 0
  | _ :: _ => overlap_end_from current chunk_overlap (current.length - 1) 0

/-- The sentence accumulation loop of `split_text`.  State: emitted chunks,
the running chunk's sentences, and `current_length`. -/
def split_loop (chunk_size chunk_overlap : Nat) (chunks : List String)
    (current : List String) (curLen : Nat) : List String → List String × List String × Nat
  | [] => (chunks, current, curLen)
  | s :: rest =>
    if current.isEmpty ∨ curLen + s.length ≤ chunk_size then
      split_loop chunk_size chunk_overlap chunks (current ++ [s]) (curLen + s.length) rest
    else
      split_loop chunk_size chunk_overlap (chunks ++ [String.intercalate " " current])
        (current.drop (overlap_end current chunk_overlap) ++ [s])
        (sumLen (current.drop (overlap_end current chunk_overlap) ++ [s])) rest

/-- `TextProcessor.split_text` applied to the tokenised sentence list. -/
def split_text (sentences : List String) (chunk_size chunk_overlap : Nat) : List String :=
  match split_loop chunk_size chunk_overlap [] [] 0 sentences with
  | (chunks, current, _) =>
    if current.isEmpty then chunks else chunks ++ [String.intercalate " " current]

/-- Specification-side instrumented chunking: each produced chunk is kept as
its sentence list, annotated with the number of sentences of its forced seed
(`1` for a first sentence placed into an empty chunk, and the count of overlap
sentences plus the overflowing sentence for a chunk begun on overflow).  The
loop mirrors `split_loop` step for step. -/
def split_groups_loop (chunk_size chunk_overlap : Nat) (groups : List (List String × Nat))
    (current : List String) (seed : Nat) : List String → List (List String × Nat) × List String × Nat
  | [] => (groups, current, seed)
  | s :: rest =>
    if current.isEmpty then
      split_groups_loop chunk_size chunk_overlap groups [s] 1 rest
    else if sumLen current + s.length ≤ chunk_size then
      split_groups_loop chunk_size chunk_overlap groups (current ++ [s]) seed rest
    else
      split_groups_loop chunk_size chunk_overlap (groups ++ [(current, seed)])
        (current.drop (overlap_end current chunk_overlap) ++ [s])
        ((current.drop (overlap_end current chunk_overlap)).length + 1) rest

/-- The annotated chunk groups produced by `split_text`. -/
def split_groups (sentences : List String) (chunk_size chunk_overlap : Nat) :
    List (List String × Nat) :=
  match split_groups_loop chunk_size chunk_overlap [] [] 1 sentences with
  | (groups, current, seed) =>
    if current.isEmpty then groups else groups ++ [(current, seed)]

/-- Two annotated chunk groups share a sentence sequence: some nonempty run of
sentences is both a tail of the first chunk and a head of the second. -/
def SharesTail (g h : List String × Nat) : Prop :=
  ∃ l : List String, l ≠ [] ∧ l <:+ g.1 ∧ l <+: h.1

/-! ### Search engine (`ai/search_engine.py`)

`SearchEngine.search` runs three strategies over one result pool deduplicated
through the `seen_texts` set, then stable-sorts the pool by similarity
descending and truncates to `top_k`.  Python's `list.sort(key=..., reverse=True)`
is a stable sort; a stable sort is uniquely determined by the comparison key
and the input order, so it is modelled by `List.mergeSort` with the
comparison `simLE` (which keeps the left element on ties, hence is stable).

External boundaries taken as oracle parameters:
* `embed` — `AIClient.get_embedding`, which returns `None` when the embedding
  service raises (`ai_client.py` lines 60-78);
* `knn` — `hnswlib.Index.knn_query`, returning `(label, distance)` pairs; the
  labels returned by the index are positions in the aligned `metadata` list;
* `low` — Python's Unicode `str.lower`;
* `extract_keywords` — `SearchEngine.extract_keywords`, whose final
  `list(set(keywords))` has unspecified (hash-dependent) iteration order in
  Python, so its output is taken as an input of the model. -/

/-- A corpus fragment from the persisted metadata (`{text, source}`). -/
structure Chunk where
  text : String
  source : String
deriving DecidableEq, Repr

/-- A search result (`{text, source, similarity, strategy}`). -/
structure SearchResult where
  text : String
  source : String
  similarity : ℚ
  strategy : String
deriving DecidableEq, Repr

/-- The comparison used to model `sort(key=lambda x: x["similarity"], reverse=True)`:
`a` may stay before `b` iff `b`'s similarity is at most `a`'s. -/
def simLE (a b : SearchResult) : Bool := decide (b.similarity ≤ a.similarity)

/-- The external collaborators of `SearchEngine`, per the interface boundary
of the design document. -/
structure SearchOracle where
  embed : String → Option (List ℚ)
  knn : List ℚ → Nat → List (Nat × ℚ)
  low : String → String
  extract_keywords : String → List String

/-- Python's substring containment `pat in s`. -/
def contains_sub_go (pat : List Char) : List Char → Bool
  | [] => pat.isEmpty
  | c :: rest => pat.isPrefixOf (c :: rest) || contains_sub_go pat rest

/-- Python's substring containment on strings. -/
def contains_sub (pat s : String) : Bool := contains_sub_go pat.toList s.toList

/-- The fixed synonym table of `expand_query` (dict literals iterate in
insertion order). -/
def synonyms : List (String × List String) :=
  [("проект", ["кейс", "задача", "решение", "разработка"]),
   ("алгоритм", ["нейросеть", "модель", "ИИ", "AI", "машинное обучение"]),
   ("бот", ["чат-бот", "ассистент", "помощник", "chatbot"]),
   ("компания", ["клиент", "заказчик", "организация", "фирма"]),
   ("технология", ["решение", "система", "платформа", "инструмент"]),
   ("анализ", ["обработка", "исследование", "изучение", "аналитика"]),
   ("автоматизация", ["оптимизация", "упрощение", "ускорение"])]

/-- `SearchEngine.expand_query`: the unmodified question followed by one
rewrite per synonym of every trigger word contained in the lowercased
question. -/
def expand_query (low : String → String) (question : String) : List String :=
  synonyms.foldl
    (fun acc p =>
      if contains_sub p.1 (low question) then
        acc ++ p.2.map (fun syn => (low question).replace p.1 syn)
      else acc)
    [question]

/-- One admission step into the shared result pool: skip when the text was
already seen, otherwise admit when the strategy's extra condition holds and
record the text as seen. -/
def add_unseen (ok : SearchResult → Bool) (st : List SearchResult × List String)
    (r : SearchResult) : List SearchResult × List String :=
  if r.text ∈ st.2 then st
  else if ok r then (st.1 ++ [r], r.text :: st.2) else st

/-- The results read off one `knn_query` answer: for each `(label, distance)`
pair, the metadata fragment at `label` with `similarity = 1 - distance`.
(The index's labels are positions into the aligned metadata list, so the
lookup total-ises Python's `self.metadata[label]` with a default that is
never reached on index-produced labels.) -/
def results_of_knn (metadata : List Chunk) (pairs : List (Nat × ℚ))
    (strategy : String) : List SearchResult :=
  pairs.map (fun p =>
    ⟨ (metadata.getD p.1 ⟨ "", ""⟩).text, (metadata.getD p.1 ⟨ "", ""⟩).source,
      1 - p.2, strategy⟩)

/-- Strategy 1 candidates: `top_k` nearest neighbours of the question's own
embedding, or nothing when `get_embedding` returned `None`. -/
def direct_candidates (o : SearchOracle) (metadata : List Chunk) (question : String)
    (top_k : Nat) : List SearchResult :=
  match o.embed question with
  | none => []
  | some v => results_of_knn metadata (o.knn v top_k) "direct"

/-- Strategy 1 admission into the pool (no extra condition). -/
def direct_phase (o : SearchOracle) (metadata : List Chunk) (question : String)
    (top_k : Nat) (st : List SearchResult × List String) :
    List SearchResult × List String :=
  (direct_candidates o metadata question top_k).foldl (add_unseen (fun _ => true)) st

/-- Strategy 2 candidates: for each of `expanded_queries[1:3]` different from
the question whose embedding succeeds, the 5 nearest neighbours. -/
def expanded_candidates (o : SearchOracle) (metadata : List Chunk)
    (question : String) : List SearchResult :=
  ((((expand_query o.low question).drop 1).take 2).filter (fun q => q != question)).foldl
    (fun acc q =>
      match o.embed q with
      | none => acc
      | some v => acc ++ results_of_knn metadata (o.knn v 5) "expanded")
    []

/-- Strategy 2 admission: only texts not already seen with similarity
strictly above `0.6`. -/
def expanded_phase (o : SearchOracle) (metadata : List Chunk) (question : String)
    (st : List SearchResult × List String) : List SearchResult × List String :=
  (expanded_candidates o metadata question).foldl
    (add_unseen (fun r => decide ((6 : ℚ)/10 < r.similarity))) st

/-- `SearchEngine.keyword_search`: score every fragment by the fraction of
keywords it contains, keep those reaching the threshold, sort by score
descending (stable) and keep the top 5. -/
def keyword_search (low : String → String) (metadata : List Chunk)
    (keywords : List String) (threshold : Nat) : List SearchResult :=
  let results := metadata.foldl
    (fun acc chunk =>
      let matched := (keywords.filter (fun k => contains_sub k (low chunk.text))).length
      if threshold ≤ matched then
        acc ++ [⟨chunk.text, chunk.source, (matched : ℚ) / (keywords.length : ℚ), "keyword"⟩]
      else acc)
    []
  (results.mergeSort simLE).take 5

/-- Strategy 3 admission: keyword fallback results (threshold 1), skipped
entirely when no keywords were extracted. -/
def keyword_phase (o : SearchOracle) (metadata : List Chunk) (question : String)
    (st : List SearchResult × List String) : List SearchResult × List String :=
  let kws := o.extract_keywords question
  if kws.isEmpty then st
  else (keyword_search o.low metadata kws 1).foldl (add_unseen (fun _ => true)) st

/-- The merged result pool of `SearchEngine.search` before sorting, together
with the final `seen_texts`. -/
def search_pool (o : SearchOracle) (metadata : List Chunk) (question : String)
    (top_k : Nat) : List SearchResult × List String :=
  keyword_phase o metadata question
    (expanded_phase o metadata question
      (direct_phase o metadata question top_k ([], [])))

/-- `SearchEngine.search`: the pool sorted by similarity descending (stable)
and truncated to `top_k`. -/
def search (o : SearchOracle) (metadata : List Chunk) (question : String)
    (top_k : Nat) : List SearchResult :=
  ((search_pool o metadata question top_k).1.mergeSort simLE).take top_k

/-- Written from the specification: the rewrites that strategy 2 embeds and
queries are the first two generated rewrites (the elements after the
unmodified question), excluding any rewrite equal to the unmodified
question. -/
def queried_rewrites (low : String → String) (question : String) : List String :=
  (((expand_query low question).drop 1).take 2).filter (fun q => q != question)

/-- Written from the specification of strategy 2 (design document §4.3):
each queried rewrite whose embedding succeeds contributes up to 5 nearest
neighbours; a result is admitted only if its similarity is strictly greater
than `0.6` and its text is not already in the pool, and it is tagged
`expanded`. -/
def expanded_phase_spec (o : SearchOracle) (metadata : List Chunk) (question : String)
    (st : List SearchResult × List String) : List SearchResult × List String :=
  (queried_rewrites o.low question).foldl
    (fun st1 q =>
      match o.embed q with
      | none => st1
      | some v =>
        (results_of_knn metadata (o.knn v 5) "expanded").foldl
          (fun st2 r =>
            if r.text ∉ st2.2 ∧ (6 : ℚ)/10 < r.similarity then
              (st2.1 ++ [r], r.text :: st2.2)
            else st2)
          st1)
    st

/-! ### Context builder (`ai/context_builder.py`, `create_context`, lines 17-53)

Results are grouped by source (a dict, iterating in first-occurrence order);
each group is stable-sorted by similarity descending and truncated to 10;
fragments with similarity at most `0.2` are then dropped; finally the emitted
blocks are capped to `max_context_length` and joined.  Only the block text's
two-decimal float formatting is abstracted (as the `fmt` parameter): the
properties at issue concern which fragments are emitted, not the decimal
rendering. -/

/-- The `by_source` dict: group results by their source, preserving both the
first-occurrence order of sources and the order of results within a group. -/
def group_by_source (results : List SearchResult) : List (String × List SearchResult) :=
  results.foldl
    (fun acc r =>
      if (acc.lookup r.source).isSome then
        acc.map (fun p => if p.1 == r.source then (p.1, p.2 ++ [r]) else p)
      else acc ++ [(r.source, [r])])
    []

/-- The `context_parts` list, as the sequence of emitted fragments: per
source group, the top 10 by similarity (stable), filtered to similarity
strictly above `0.2`. -/
def context_parts (results : List SearchResult) : List SearchResult :=
  (group_by_source results).foldl
    (fun parts p =>
      parts ++ ((p.2.mergeSort simLE).take 10).filter
        (fun r => decide ((2 : ℚ)/10 < r.similarity)))
    []

/-- One rendered context block (`Источник/Релевантность/Контент`); `fmt` is
Python's `f"{x:.2f}"` float formatting. -/
def render_block (fmt : ℚ → String) (r : SearchResult) : String :=
  "Источник: " ++ r.source ++ "\n" ++ "Релевантность: " ++ fmt r.similarity ++ "\n" ++
    "Контент: " ++ r.text ++ "\n"

/-- `ContextBuilder.create_context`: empty input yields the empty string;
otherwise the emitted blocks, capped to `max_context_length`, joined by the
fixed separator. -/
def create_context (fmt : ℚ → String) (max_context_length : Nat)
    (results : List SearchResult) : String :=
  if results.isEmpty then ""
  else
    String.intercalate "\n---\n"
      (((context_parts results).take max_context_length).map (render_block fmt))

/-! ### Embedding manager (`parser/embedding_manager.py`)

`get_embeddings` serves each input text from the content-addressed cache when
possible, deduplicates the missing texts preserving first-seen order
(`original_indices`), fetches them in batches with retry, writes the results
back into the cache and into every original position, and saves the cache.

The remote call of `_fetch_embeddings` is an oracle
`req : batch index → attempt → FetchOutcome`.  Only `httpx.RequestError` is
caught by the retry loop; `response.raise_for_status()` raises
`httpx.HTTPStatusError` (not a `RequestError`), and a malformed JSON body
raises as well — both are modelled by `FetchOutcome.otherError`, which
escapes as `Except.error ()`.  SHA-256 hashing is the parameter `h`
(collision-freedom is the `Function.Injective h` hypothesis where needed).
The cache is an association list `hash → vector`; the surrounding
load/save logic (including the model-identifier check on load) is I/O and is
represented by passing the cache in and out. -/

/-- Outcome of one attempt of the HTTP embedding request for a batch. -/
inductive FetchOutcome where
  | ok (embeddings : List (List ℚ)) : FetchOutcome
  | requestError : FetchOutcome
  | otherError : FetchOutcome

/-- The statistics dict of `EmbeddingManager` (lines 44-49).  Note its four
keys: there is no fallback counter. -/
structure EmbStats where
  api_calls : Nat
  cache_hits : Nat
  cache_misses : Nat
  total_tokens : Nat
deriving DecidableEq, Repr

/-- Python's `len(text.split())`: the number of maximal whitespace-free runs. -/
def word_count_go : Bool → List Char → Nat
  | _, [] => 0
  | inWord, c :: rest =>
    if c.isWhitespace then word_count_go false rest
    else if inWord then word_count_go true rest
    else 1 + word_count_go true rest

/-- Python's `len(text.split())` on a string. -/
def word_count (s : String) : Nat := word_count_go false s.toList

/-- `range(0, len(texts), batch_size)` slicing, with fuel (the list length)
to keep the recursion structural; the fuel is never exhausted when
`batch_size ≥ 1`. -/
def list_chunks_go (batch_size : Nat) : Nat → List String → List (List String)
  | _, [] => []
  | 0, l => [l]
  | fuel + 1, x :: xs =>
    (x :: xs.take (batch_size - 1)) :: list_chunks_go batch_size fuel (xs.drop (batch_size - 1))

/-- The batch slices `texts[i : i + batch_size]`. -/
def list_chunks (batch_size : Nat) (l : List String) : List (List String) :=
  list_chunks_go batch_size l.length l

/-- The retry loop of `_fetch_embeddings` for one batch, one attempt at a
time (the second `Nat` argument is the number of attempts remaining).  A
success contributes the response's embeddings; a `requestError` on the last
attempt contributes one zero vector of the configured dimensionality per
batch element; any other exception propagates. -/
def fetch_batch_go (req : Nat → FetchOutcome) (max_retries batch_len dim : Nat) :
    Nat → Nat → Except Unit (List (List ℚ))
  | _, 0 => .ok []
  | attempt, remaining + 1 =>
    match req attempt with
    | .ok embs => .ok embs
    | .otherError => .error ()
    | .requestError =>
      if attempt + 1 == max_retries then
        .ok (List.replicate batch_len (List.replicate dim 0))
      else fetch_batch_go req max_retries batch_len dim (attempt + 1) remaining

/-- The retry loop of `_fetch_embeddings` for one batch, started at attempt 0. -/
def fetch_batch (req : Nat → FetchOutcome) (max_retries batch_len dim : Nat) :
    Except Unit (List (List ℚ)) :=
  fetch_batch_go req max_retries batch_len dim 0 max_retries

/-- The body of the batch loop of `_fetch_embeddings`: attempt one batch
(`p = (batch index, batch)`), extend the accumulated embeddings on success,
and add this batch's `api_calls` and `total_tokens` increments. -/
def fetch_step (req : Nat → Nat → FetchOutcome) (max_retries dim : Nat)
    (acc : List (List ℚ) × Nat × Nat) (p : Nat × List String) :
    Except Unit (List (List ℚ) × Nat × Nat) :=
  match fetch_batch (req p.1) max_retries p.2.length dim with
  | .error e => .error e
  | .ok embs => .ok (acc.1 ++ embs, acc.2.1 + 1, acc.2.2 + (p.2.map word_count).sum)

/-- `EmbeddingManager._fetch_embeddings`: fetch the texts in batches,
returning the concatenated embeddings together with the `api_calls` and
`total_tokens` statistics increments.  `range(0, n, 0)` raises in Python, so
`batch_size = 0` is an error. -/
def fetch_embeddings (req : Nat → Nat → FetchOutcome) (texts : List String)
    (batch_size max_retries dim : Nat) : Except Unit (List (List ℚ) × Nat × Nat) :=
  if batch_size = 0 then .error ()
  else (list_chunks batch_size texts).enum.foldlM (fetch_step req max_retries dim) ([], 0, 0)

/-- `cache[text_hash] = embedding` on the association-list model of a dict:
replace the value if the key exists, otherwise append the binding. -/
def insert_assoc (m : List (String × List ℚ)) (k : String) (v : List ℚ) :
    List (String × List ℚ) :=
  if (m.lookup k).isSome then m.map (fun p => if p.1 == k then (p.1, v) else p)
  else m ++ [(k, v)]

/-- One step of building `original_indices`: append position `i` to the
positions of text `t`, creating the entry on first sight. -/
def add_index (oi : List (String × List Nat)) (t : String) (i : Nat) :
    List (String × List Nat) :=
  if (oi.lookup t).isSome then oi.map (fun p => if p.1 == t then (p.1, p.2 ++ [i]) else p)
  else oi ++ [(t, [i])]

/-- The `original_indices` dict of `get_embeddings`: for every position `i`
whose text misses the cache, the positions of that text, keyed by the text in
first-seen order. -/
def original_indices (h : String → String) (cache : List (String × List ℚ))
    (texts : List String) : List (String × List Nat) :=
  texts.enum.foldl
    (fun oi p => if (cache.lookup (h p.2)).isSome then oi else add_index oi p.2 p.1)
    []

/-- `texts_to_fetch = list(original_indices.keys())`. -/
def texts_to_fetch_of (h : String → String) (cache : List (String × List ℚ))
    (texts : List String) : List String :=
  (original_indices h cache texts).map Prod.fst

/-- The write-back loop `for i, text in enumerate(texts_to_fetch)`: look up
the `i`-th fetched embedding (an out-of-range index is Python's
`IndexError`), store it in the cache under the text's hash, and place it at
every original position of that text. -/
def fill_loop (oi : List (String × List Nat)) (new_embeddings : List (List ℚ))
    (h : String → String) (cache : List (String × List ℚ))
    (final : List (Option (List ℚ))) :
    List (Nat × String) → Except Unit (List (String × List ℚ) × List (Option (List ℚ)))
  | [] => .ok (cache, final)
  | (i, t) :: rest =>
    match new_embeddings[i]? with
    | none => .error ()
    | some emb =>
      fill_loop oi new_embeddings h (insert_assoc cache (h t) emb)
        (((oi.lookup t).getD []).foldl (fun f idx => f.set idx (some emb)) final) rest

/-- `np.array(final_embeddings, dtype=np.float32)`: building the output array
fails if any position was left unfilled (`None`). -/
def all_some : List (Option (List ℚ)) → Option (List (List ℚ))
  | [] => some []
  | none :: _ => none
  | some v :: rest => (all_some rest).map (fun l => v :: l)

/-- `EmbeddingManager.get_embeddings`: serve hits from the cache, fetch the
deduplicated misses, write them back, and return the positionally aligned
vectors, the updated (saved) cache, and this call's statistics increments. -/
def get_embeddings (h : String → String) (req : Nat → Nat → FetchOutcome)
    (cache : List (String × List ℚ)) (texts : List String)
    (batch_size max_retries dim : Nat) :
    Except Unit (List (List ℚ) × List (String × List ℚ) × EmbStats) :=
  let final0 : List (Option (List ℚ)) := texts.map (fun t => cache.lookup (h t))
  let hits := (texts.filter (fun t => (cache.lookup (h t)).isSome)).length
  let misses := texts.length - hits
  let oi := original_indices h cache texts
  let tf := oi.map Prod.fst
  if tf.isEmpty then
    match all_some final0 with
    | none => .error ()
    | some out => .ok (out, cache, ⟨0, hits, misses, 0⟩)
  else
    match fetch_embeddings req tf batch_size max_retries dim with
    | .error e => .error e
    | .ok (new_embeddings, calls, toks) =>
      match fill_loop oi new_embeddings h cache final0 tf.enum with
      | .error e => .error e
      | .ok (cache2, final2) =>
        match all_some final2 with
        | none => .error ()
        | some out => .ok (out, cache2, ⟨calls, hits, misses, toks⟩)

/-! ### Concrete instances used to exercise the theorems -/

/-- A minimal search oracle: the embedding service is down (every
`get_embedding` call returns `None`), the index returns no neighbours, and no
keywords are extracted. -/
def triv_oracle : SearchOracle where
  embed := fun _ => none
  knn := fun _ _ => []
  low := fun s => s
  extract_keywords := fun _ => []

/-- A search oracle whose keyword extractor returns one keyword, over a
one-fragment corpus. -/
def kw_oracle : SearchOracle where
  embed := fun _ => none
  knn := fun _ _ => []
  low := fun s => s
  extract_keywords := fun _ => ["кейс"]

/-- The one-fragment corpus used with `kw_oracle`. -/
def kw_metadata : List Chunk := [⟨ "кейс about bots", "http://e/x"⟩]

/-- An embedding request oracle that fails every attempt of every batch with
a transient `httpx.RequestError`. -/
def req_fail : Nat → Nat → FetchOutcome := fun _ _ => .requestError

/-- An embedding request oracle that raises a non-`RequestError` exception
(an HTTP status error) on the first attempt. -/
def req_status : Nat → Nat → FetchOutcome := fun _ _ => .otherError

/-- An embedding request oracle answering every batch with two
one-dimensional vectors. -/
def req_ok_two : Nat → Nat → FetchOutcome := fun _ _ => .ok [[1], [2]]

/-- A trivial similarity formatter standing in for `f"{x:.2f}"`. -/
def triv_fmt : ℚ → String := fun _ => ""

/-- A one-element search-result list used to exercise the context builder. -/
def one_result : List SearchResult := [⟨ "t", "s", 1, "direct"⟩]

/-! ## Theorems -/

/-! ### General lemmas -/

theorem simLE_trans' (a b c : SearchResult) (hab : simLE a b = true)
    (hbc : simLE b c = true) : simLE a c = true := by
  simp only [simLE, decide_eq_true_eq] at *
  exact le_trans hbc hab

theorem simLE_total' (a b : SearchResult) : (simLE a b || simLE b a) = true := by
  simp only [simLE, Bool.or_eq_true, decide_eq_true_eq]
  exact le_total b.similarity a.similarity

theorem foldl_append_eq_join {α β : Type} (g : α → List β) (l : List α) (init : List β) :
    l.foldl (fun acc a => acc ++ g a) init = init ++ (l.map g).flatten := by
  induction l generalizing init with
  | nil => simp
  | cons a l ih => simp [ih (init ++ g a)]

/-! ### C1 — citation renumbering on the documented scenario

For the answer text `"A[3] B[1] C[3] D[9]"` and a 2-element source list the
code renumbers in first-seen order (`[3]→1`, `[1]→2`, `[9]→3`) with repeats
mapping to the same new number, but the first distinct original number `3` is
out of range for a 2-element source list (`1 ≤ N ≤ 2` fails), so its marker is
renumbered *without* a link: only the second distinct original number `1`
yields a linked marker.  The claim that the first and second distinct
original numbers both become linked markers is false. -/

/-- C1 (counterexample): with two sources, the new number `1` — assigned to
the first distinct original number `3` — has no URL in `url_mapping`, and in
the rendered output the occurrences of `[3]` become the plain marker `[1]`,
not a link; so it is false that the first and second distinct original
numbers both become linked markers. -/
theorem c1_counterexample :
    (url_mapping_of (citation_mapping_of (find_citations "A[3] B[1] C[3] D[9]"))
        demo_sources).lookup 1 = none ∧
    process_citations "A[3] B[1] C[3] D[9]" demo_sources =
      "A[1] B\\[[2](u1)] C[1] D[3]" :=
  ⟨rfl, rfl⟩

/-- C1 (amended): for the completed answer text `"A[3] B[1] C[3] D[9]"` and an
ordered source list of exactly 2 elements, the renderer renumbers markers in
first-seen order (`[3]→1`, `[1]→2`, `[9]→3`), every repeat of the same
original number maps to the same new number, and a marker is linked exactly
when its original number `N` satisfies `1 ≤ N ≤ len(sources)`: here only
`[1]` (new number 2, resolved to the first source's URL `u1`); `[3]` and
`[9]` are out of range and are rendered as the plain unlinked numeric markers
`[1]` and `[3]`. -/
theorem c1_citation_renumbering :
    citation_mapping_of (find_citations "A[3] B[1] C[3] D[9]") =
      [("3", 1), ("1", 2), ("9", 3)] ∧
    url_mapping_of (citation_mapping_of (find_citations "A[3] B[1] C[3] D[9]"))
        demo_sources = [(2, "u1")] ∧
    process_citations "A[3] B[1] C[3] D[9]" demo_sources =
      "A[1] B\\[[2](u1)] C[1] D[3]" :=
  ⟨rfl, rfl, rfl⟩

/-! ### C2 — zero-vector fallback of `_fetch_embeddings`

The retry loop catches only `httpx.RequestError`; `raise_for_status()`
raises `httpx.HTTPStatusError`, which is *not* a `RequestError` and
propagates out of `_fetch_embeddings` — so it is false that no exception
propagates for any kind of service failure.  Moreover the statistics dict
(lines 44-49) has keys `api_calls`, `cache_hits`, `cache_misses`,
`total_tokens` only: there is no fallback count.  What does hold: when every
attempt of every batch fails with a transient `RequestError`, every text
receives a zero vector of the configured dimensionality and the call returns
normally. -/

theorem fetch_batch_go_fail (req : Nat → FetchOutcome) (mr bl dim : Nat)
    (hfail : ∀ a, req a = .requestError) :
    ∀ remaining attempt, attempt + remaining = mr → remaining ≠ 0 →
      fetch_batch_go req mr bl dim attempt remaining =
        .ok (List.replicate bl (List.replicate dim 0)) := by
  intro remaining
  induction remaining with
  | zero => intro attempt _ h0; exact absurd rfl h0
  | succ n ih =>
    intro attempt h _
    rw [fetch_batch_go, hfail]
    by_cases hc : attempt + 1 = mr
    · simp [hc]
    · have hb : (attempt + 1 == mr) = false := by simp [hc]
      rw [hb]
      exact ih (attempt + 1) (by omega) (by omega)

theorem fetch_batch_fail (req : Nat → FetchOutcome) (mr bl dim : Nat)
    (hfail : ∀ a, req a = .requestError) (hmr : mr ≠ 0) :
    fetch_batch req mr bl dim = .ok (List.replicate bl (List.replicate dim 0)) :=
  fetch_batch_go_fail req mr bl dim hfail mr 0 (by omega) hmr

theorem list_chunks_go_join (bs : Nat) :
    ∀ (fuel : Nat) (l : List String), l.length ≤ fuel →
      (list_chunks_go bs fuel l).flatten = l := by
  intro fuel
  induction fuel with
  | zero =>
    intro l hl
    cases l with
    | nil => rfl
    | cons x xs => simp at hl
  | succ n ih =>
    intro l hl
    cases l with
    | nil => rfl
    | cons x xs =>
      simp only [list_chunks_go, List.flatten]
      rw [ih (xs.drop (bs - 1)) (by simp at hl ⊢; omega)]
      simp [List.take_append_drop]

theorem list_chunks_join (bs : Nat) (l : List String) :
    (list_chunks bs l).flatten = l :=
  list_chunks_go_join bs l.length l le_rfl

theorem list_chunks_length_sum (bs : Nat) (l : List String) :
    ((list_chunks bs l).map List.length).sum = l.length := by
  rw [← List.length_flatten, list_chunks_join]

theorem fetch_embeddings_fail_aux (req : Nat → Nat → FetchOutcome) (mr dim : Nat)
    (hfail : ∀ b a, req b a = .requestError) (hmr : mr ≠ 0) :
    ∀ (chs : List (List String)) (n : Nat) (acc : List (List ℚ) × Nat × Nat),
      (chs.enumFrom n).foldlM (fetch_step req mr dim) acc =
      .ok (acc.1 ++ List.replicate ((chs.map List.length).sum) (List.replicate dim 0),
           acc.2.1 + chs.length,
           acc.2.2 + (chs.map (fun b => (b.map word_count).sum)).sum) := by
  intro chs
  induction chs with
  | nil => intro n acc; simp [List.foldlM, pure, Except.pure]
  | cons b rest ih =>
    intro n acc
    simp only [List.enumFrom, List.foldlM]
    rw [fetch_step, fetch_batch_fail (req n) mr b.length dim (hfail n) hmr]
    simp only [bind, Except.bind]
    rw [ih (n + 1) (acc.1 ++ List.replicate b.length (List.replicate dim 0), acc.2.1 + 1,
      acc.2.2 + (b.map word_count).sum)]
    simp only [List.map_cons, List.sum_cons, List.length_cons, List.replicate_add,
      List.append_assoc, Except.ok.injEq, Prod.mk.injEq]
    refine ⟨trivial, by omega, by omega⟩

/-- C2 (amended): when every attempt of every batch fails with a transient
`httpx.RequestError` (`max_retries` attempts each, with a positive batch size
and retry count), `_fetch_embeddings` returns normally and assigns every text
a zero vector of the configured dimensionality; the returned statistics
increments are one `api_calls` per batch and the batch word totals — there is
no fallback counter among the statistics.  (Exceptions other than
`RequestError`, such as the `HTTPStatusError` of `raise_for_status()`, are
not caught; see the counterexample.) -/
theorem c2_zero_vector_fallback (req : Nat → Nat → FetchOutcome)
    (texts : List String) (bs mr dim : Nat) (hb : bs ≠ 0) (hm : mr ≠ 0)
    (hfail : ∀ b a, req b a = .requestError) :
    fetch_embeddings req texts bs mr dim =
      .ok (List.replicate texts.length (List.replicate dim 0),
           (list_chunks bs texts).length,
           ((list_chunks bs texts).map (fun b => (b.map word_count).sum)).sum) := by
  unfold fetch_embeddings
  rw [if_neg hb]
  have h := fetch_embeddings_fail_aux req mr dim hfail hm (list_chunks bs texts) 0 ([], 0, 0)
  rw [show (list_chunks bs texts).enum = (list_chunks bs texts).enumFrom 0 from rfl]
  rw [h]
  simp [list_chunks_length_sum]

/-- C2 (counterexample): a non-`RequestError` service failure — here an HTTP
status error raised by `raise_for_status()` on the first attempt — propagates
out of `_fetch_embeddings` as an exception instead of producing a zero-vector
fallback, refuting the claim that no exception propagates to the caller for
any kind of service failure. -/
theorem c2_counterexample :
    fetch_embeddings req_status ["t"] 32 5 4 = .error () := rfl

/-- C2 (witness): the amended theorem applied to one concrete text with the
all-attempts-fail oracle: the call returns normally with one 4-dimensional
zero vector. -/
theorem c2_zero_vector_fallback_witness :
    fetch_embeddings req_fail ["t"] 32 5 4 =
      .ok ([[0, 0, 0, 0]], 1, 1) := by
  have h := c2_zero_vector_fallback req_fail ["t"] 32 5 4 (by decide) (by decide)
    (fun _ _ => rfl)
  rw [h]
  rfl

/-! ### C5 — chunk size bound of `split_text` -/

/-- C5 (counterexample): with `chunk_size = 10` and two five-character
sentences, the single produced chunk `"aaaaa bbbbb"` has length 11 > 10 (the
joining space is not counted by `current_length`), although no single
sentence exceeds the chunk size — refuting the claim that every chunk's
length is bounded by `chunkSize` except when a single sentence alone exceeds
it. -/
theorem c5_counterexample :
    split_text ["aaaaa", "bbbbb"] 10 0 = ["aaaaa bbbbb"] ∧
    10 < (String.length "aaaaa bbbbb") ∧
    String.length "aaaaa" ≤ 10 ∧ String.length "bbbbb" ≤ 10 :=
  ⟨rfl, by decide, by decide, by decide⟩

/-! ### Chunker lemmas -/

theorem sumLen_append (l : List String) (s : String) :
    sumLen (l ++ [s]) = sumLen l + s.length := by
  simp [sumLen]

theorem overlap_end_from_le (current : List String) (co : Nat) :
    ∀ j acc, overlap_end_from current co j acc ≤ j := by
  intro j
  induction j with
  | zero => intro acc; simp [overlap_end_from]
  | succ n ih =>
    intro acc
    rw [overlap_end_from]
    split
    · exact le_rfl
    · exact le_trans (ih _) (Nat.le_succ n)

theorem overlap_end_lt (current : List String) (co : Nat) (h : current ≠ []) :
    overlap_end current co < current.length := by
  match current, h with
  | c :: cs, _ =>
    show overlap_end_from (c :: cs) co ((c :: cs).length - 1) 0 < (c :: cs).length
    have := overlap_end_from_le (c :: cs) co ((c :: cs).length - 1) 0
    simp only [List.length_cons] at *
    omega

theorem split_loop_eq_groups (cs co : Nat) :
    ∀ (sentences : List String) (groups : List (List String × Nat))
      (current : List String) (seed : Nat),
      split_loop cs co (groups.map (fun g => String.intercalate " " g.1)) current
          (sumLen current) sentences =
        (((split_groups_loop cs co groups current seed sentences).1).map
            (fun g => String.intercalate " " g.1),
         (split_groups_loop cs co groups current seed sentences).2.1,
         sumLen (split_groups_loop cs co groups current seed sentences).2.1) := by
  intro sentences
  induction sentences with
  | nil => intro groups current seed; rfl
  | cons s rest ih =>
    intro groups current seed
    by_cases hemp : current.isEmpty
    · have hcur : current = [] := by simpa using hemp
      subst hcur
      rw [split_loop, if_pos (Or.inl hemp), split_groups_loop, if_pos hemp]
      have h1 : sumLen ([] : List String) + s.length = sumLen [s] := by simp [sumLen]
      rw [show ([] : List String) ++ [s] = [s] from rfl, h1]
      exact ih groups [s] 1
    · have hne : current ≠ [] := by simpa [List.isEmpty_iff] using hemp
      by_cases hfit : sumLen current + s.length ≤ cs
      · rw [split_loop, if_pos (Or.inr hfit), split_groups_loop, if_neg (by simpa [List.isEmpty_iff] using hne),
          if_pos hfit]
        rw [← sumLen_append current s]
        exact ih groups (current ++ [s]) seed
      · rw [split_loop, if_neg (by
            intro hor
            cases hor with
            | inl h => exact hemp h
            | inr h => exact hfit h),
          split_groups_loop, if_neg (by simpa [List.isEmpty_iff] using hne), if_neg hfit]
        have h2 := ih (groups ++ [(current, seed)])
          (current.drop (overlap_end current co) ++ [s])
          ((current.drop (overlap_end current co)).length + 1)
        rw [List.map_append] at h2
        exact h2

theorem split_text_eq_groups (sentences : List String) (cs co : Nat) :
    split_text sentences cs co =
      (split_groups sentences cs co).map (fun g => String.intercalate " " g.1) := by
  unfold split_text split_groups
  have h := split_loop_eq_groups cs co sentences [] [] 1
  simp only [List.map_nil] at h
  rw [show (0 : Nat) = sumLen [] from rfl, h]
  rcases split_groups_loop cs co [] [] 1 sentences with ⟨gs, cur, sd⟩
  by_cases hcur : cur.isEmpty
  · simp [hcur]
  · simp [hcur]

theorem split_groups_loop_ok (cs co : Nat) :
    ∀ (sentences : List String) (groups : List (List String × Nat))
      (current : List String) (seed : Nat),
      (∀ g ∈ groups, g.1 ≠ [] ∧ 1 ≤ g.2 ∧ g.2 ≤ g.1.length ∧
        (sumLen g.1 ≤ cs ∨ g.1.length = g.2)) →
      (current ≠ [] → (1 ≤ seed ∧ seed ≤ current.length ∧
        (sumLen current ≤ cs ∨ current.length = seed))) →
      (∀ g ∈ (split_groups_loop cs co groups current seed sentences).1,
        g.1 ≠ [] ∧ 1 ≤ g.2 ∧ g.2 ≤ g.1.length ∧
          (sumLen g.1 ≤ cs ∨ g.1.length = g.2)) ∧
      ((split_groups_loop cs co groups current seed sentences).2.1 ≠ [] →
        (1 ≤ (split_groups_loop cs co groups current seed sentences).2.2 ∧
         (split_groups_loop cs co groups current seed sentences).2.2 ≤
           (split_groups_loop cs co groups current seed sentences).2.1.length ∧
         (sumLen (split_groups_loop cs co groups current seed sentences).2.1 ≤ cs ∨
          (split_groups_loop cs co groups current seed sentences).2.1.length =
            (split_groups_loop cs co groups current seed sentences).2.2))) := by
  intro sentences
  induction sentences with
  | nil => intro groups current seed hg hc; exact ⟨hg, hc⟩
  | cons s rest ih =>
    intro groups current seed hg hc
    by_cases hemp : current.isEmpty
    · rw [split_groups_loop, if_pos hemp]
      refine ih groups [s] 1 hg ?_
      intro _
      refine ⟨le_rfl, by simp, Or.inr rfl⟩
    · have hne : current ≠ [] := by simpa [List.isEmpty_iff] using hemp
      by_cases hfit : sumLen current + s.length ≤ cs
      · rw [split_groups_loop, if_neg hemp, if_pos hfit]
        refine ih groups (current ++ [s]) seed hg ?_
        intro _
        obtain ⟨h1, h2, _⟩ := hc hne
        refine ⟨h1, by simp; omega, Or.inl (by rw [sumLen_append]; exact hfit)⟩
      · rw [split_groups_loop, if_neg hemp, if_neg hfit]
        refine ih (groups ++ [(current, seed)]) _ _ ?_ ?_
        · intro g hgmem
          rcases List.mem_append.mp hgmem with hmem | hmem
          · exact hg g hmem
          · rcases List.mem_singleton.mp hmem with rfl
            obtain ⟨h1, h2, h3⟩ := hc hne
            exact ⟨hne, h1, h2, h3⟩
        · intro _
          refine ⟨by omega, by simp, Or.inr (by simp)⟩

theorem split_groups_ok (sentences : List String) (cs co : Nat) :
    ∀ g ∈ split_groups sentences cs co,
      g.1 ≠ [] ∧ 1 ≤ g.2 ∧ g.2 ≤ g.1.length ∧ (sumLen g.1 ≤ cs ∨ g.1.length = g.2) := by
  have h := split_groups_loop_ok cs co sentences [] [] 1 (by intro g hg; cases hg)
    (fun hc => absurd rfl hc)
  unfold split_groups
  rcases hsp : split_groups_loop cs co [] [] 1 sentences with ⟨gs, cur, sd⟩
  rw [hsp] at h
  by_cases hcur : cur.isEmpty
  · simp only [hcur, if_pos]
    exact h.1
  · simp only [hcur, if_neg, Bool.false_eq_true, not_false_iff]
    intro g hgmem
    rcases List.mem_append.mp hgmem with hmem | hmem
    · exact h.1 g hmem
    · rcases List.mem_singleton.mp hmem with rfl
      have hne : cur ≠ [] := by simpa [List.isEmpty_iff] using hcur
      obtain ⟨h1, h2, h3⟩ := h.2 hne
      exact ⟨hne, h1, h2, h3⟩

theorem split_groups_loop_chain (cs co : Nat) :
    ∀ (sentences : List String) (groups : List (List String × Nat))
      (current : List String) (seed : Nat),
      (current = [] → groups = []) →
      List.Chain' SharesTail groups →
      (∀ g ∈ groups.getLast?, SharesTail g (current, seed)) →
      List.Chain' SharesTail
        ((split_groups_loop cs co groups current seed sentences).1 ++
          (if (split_groups_loop cs co groups current seed sentences).2.1.isEmpty then []
           else [((split_groups_loop cs co groups current seed sentences).2.1,
                  (split_groups_loop cs co groups current seed sentences).2.2)])) := by
  intro sentences
  induction sentences with
  | nil =>
    intro groups current seed h0 h1 h2
    simp only [split_groups_loop]
    by_cases hemp : current.isEmpty
    · simp only [hemp, if_true]
      simpa using h1
    · simp only [hemp, Bool.false_eq_true, if_false]
      refine List.chain'_append.mpr ⟨h1, List.chain'_singleton _, ?_⟩
      intro x hx y hy
      simp only [List.head?_cons, Option.mem_def, Option.some.injEq] at hy
      subst hy
      exact h2 x hx
  | cons s rest ih =>
    intro groups current seed h0 h1 h2
    by_cases hemp : current.isEmpty
    · rw [split_groups_loop, if_pos hemp]
      have hcur : current = [] := by simpa using hemp
      refine ih groups [s] 1 (by simp) h1 ?_
      intro g hg
      rw [h0 hcur] at hg
      cases hg
    · have hne : current ≠ [] := by simpa [List.isEmpty_iff] using hemp
      by_cases hfit : sumLen current + s.length ≤ cs
      · rw [split_groups_loop, if_neg hemp, if_pos hfit]
        refine ih groups (current ++ [s]) seed (by simp) h1 ?_
        intro g hg
        obtain ⟨l, hl0, hl1, hl2⟩ := h2 g hg
        exact ⟨l, hl0, hl1, hl2.trans (List.prefix_append current [s])⟩
      · rw [split_groups_loop, if_neg hemp, if_neg hfit]
        refine ih (groups ++ [(current, seed)]) _ _ (by simp) ?_ ?_
        · refine List.chain'_append.mpr ⟨h1, List.chain'_singleton _, ?_⟩
          intro x hx y hy
          simp only [List.head?_cons, Option.mem_def, Option.some.injEq] at hy
          subst hy
          exact h2 x hx
        · intro g hg
          rw [List.getLast?_concat] at hg
          simp only [Option.mem_def, Option.some.injEq] at hg
          subst hg
          refine ⟨current.drop (overlap_end current co), ?_, List.drop_suffix _ _,
            List.prefix_append _ _⟩
          have := overlap_end_lt current co hne
          intro hnil
          rw [List.drop_eq_nil_iff] at hnil
          omega

theorem split_groups_chain (sentences : List String) (cs co : Nat) :
    List.Chain' SharesTail (split_groups sentences cs co) := by
  have h := split_groups_loop_chain cs co sentences [] [] 1 (fun _ => rfl)
    (List.chain'_nil) (by intro g hg; cases hg)
  unfold split_groups
  rcases hsp : split_groups_loop cs co [] [] 1 sentences with ⟨gs, cur, sd⟩
  rw [hsp] at h
  by_cases hcur : cur.isEmpty
  · simpa [hcur] using h
  · simpa [hcur] using h

/-- C5 (amended): for every sentence sequence and every `chunkSize`,
`chunkOverlap`, the produced chunks are exactly the sentence groups of
`split_groups` joined with single spaces, and every group is nonempty with
its total sentence length (the chunk's length not counting the joining
spaces) at most `chunkSize`, except groups consisting entirely of forced seed
content (`g.1.length = g.2`): a single first sentence placed into an empty
chunk, or the overlap sentences together with the overflowing sentence that
begin a chunk after an overflow.  A sentence is appended to a nonempty
running chunk exactly while `currentLength + len(sentence) ≤ chunkSize`,
where `currentLength` counts only sentence characters. -/
theorem c5_chunk_bound (sentences : List String) (cs co : Nat) :
    split_text sentences cs co =
      (split_groups sentences cs co).map (fun g => String.intercalate " " g.1) ∧
    ∀ g ∈ split_groups sentences cs co,
      g.1 ≠ [] ∧ g.2 ≤ g.1.length ∧ (sumLen g.1 ≤ cs ∨ g.1.length = g.2) := by
  refine ⟨split_text_eq_groups sentences cs co, ?_⟩
  intro g hg
  obtain ⟨h1, _, h3, h4⟩ := split_groups_ok sentences cs co g hg
  exact ⟨h1, h3, h4⟩

/-- C5 (witness): the amended theorem applied to the two-sentence input of
the counterexample: the single produced chunk is the join of the group
`["aaaaa", "bbbbb"]`, whose total sentence length 10 is within the chunk
size. -/
theorem c5_chunk_bound_witness :
    split_text ["aaaaa", "bbbbb"] 10 0 =
      (split_groups ["aaaaa", "bbbbb"] 10 0).map (fun g => String.intercalate " " g.1) ∧
    ((["aaaaa", "bbbbb"], 1) ∈ split_groups ["aaaaa", "bbbbb"] 10 0 →
      sumLen ["aaaaa", "bbbbb"] ≤ 10 ∨ (["aaaaa", "bbbbb"] : List String).length = 1) := by
  refine ⟨(c5_chunk_bound ["aaaaa", "bbbbb"] 10 0).1, ?_⟩
  intro hmem
  exact ((c5_chunk_bound ["aaaaa", "bbbbb"] 10 0).2 _ hmem).2.2

/-- C6: for `chunkOverlap > 0` and input producing at least two chunks,
every pair of consecutive chunks shares at least one sentence: some nonempty
run of sentences is simultaneously a tail of chunk `i` and a head of chunk
`i+1`.  (The backward overlap walk always keeps at least the last sentence of
the closed chunk, so this holds even when a single oversized sentence forced
the break; the claim's exception clause is never needed.) -/
theorem c6_overlap_continuity (sentences : List String) (cs co : Nat)
    (_hco : 0 < co) (_hlen : 2 ≤ (split_groups sentences cs co).length) :
    split_text sentences cs co =
      (split_groups sentences cs co).map (fun g => String.intercalate " " g.1) ∧
    List.Chain' SharesTail (split_groups sentences cs co) :=
  ⟨split_text_eq_groups sentences cs co, split_groups_chain sentences cs co⟩

/-- C6 (witness): the input `["aaa", "bbb", "ccc"]` with chunk size 5 and
overlap 1 produces three chunks; the theorem applies and yields the
chain of shared sentences. -/
theorem c6_overlap_continuity_witness :
    (0 < 1 ∧ 2 ≤ (split_groups ["aaa", "bbb", "ccc"] 5 1).length) ∧
    List.Chain' SharesTail (split_groups ["aaa", "bbb", "ccc"] 5 1) :=
  ⟨⟨by decide, by decide⟩,
   (c6_overlap_continuity ["aaa", "bbb", "ccc"] 5 1 (by decide) (by decide)).2⟩

/-! ### Search engine lemmas -/

theorem add_unseen_spec (ok : SearchResult → Bool) :
    ∀ (cands : List SearchResult) (st : List SearchResult × List String),
      ∃ new : List SearchResult,
        (cands.foldl (add_unseen ok) st).1 = st.1 ++ new ∧
        (cands.foldl (add_unseen ok) st).2 = (new.map (fun r => r.text)).reverse ++ st.2 ∧
        (∀ r ∈ new, r ∈ cands ∧ ok r = true ∧ r.text ∉ st.2) ∧
        (new.map (fun r => r.text)).Nodup := by
  intro cands
  induction cands with
  | nil => intro st; exact ⟨[], by simp, by simp, by simp, by simp⟩
  | cons c rest ih =>
    intro st
    by_cases hseen : c.text ∈ st.2
    · have hstep : add_unseen ok st c = st := by rw [add_unseen, if_pos hseen]
      obtain ⟨new, h1, h2, h3, h4⟩ := ih st
      refine ⟨new, ?_, ?_, ?_, h4⟩
      · simpa [List.foldl_cons, hstep] using h1
      · simpa [List.foldl_cons, hstep] using h2
      · intro r hr
        obtain ⟨ha, hb, hc⟩ := h3 r hr
        exact ⟨List.mem_cons_of_mem _ ha, hb, hc⟩
    · by_cases hok : ok c = true
      · have hstep : add_unseen ok st c = (st.1 ++ [c], c.text :: st.2) := by
          rw [add_unseen, if_neg hseen, if_pos hok]
        obtain ⟨new, h1, h2, h3, h4⟩ := ih (st.1 ++ [c], c.text :: st.2)
        refine ⟨c :: new, ?_, ?_, ?_, ?_⟩
        · rw [List.foldl_cons, hstep, h1]
          simp
        · rw [List.foldl_cons, hstep, h2]
          simp
        · intro r hr
          rcases List.mem_cons.mp hr with hr | hmem
          · subst hr
            exact ⟨List.mem_cons_self _ _, hok, hseen⟩
          · obtain ⟨ha, hb, hc⟩ := h3 r hmem
            exact ⟨List.mem_cons_of_mem _ ha, hb,
              fun hx => hc (List.mem_cons_of_mem _ hx)⟩
        · simp only [List.map_cons, List.nodup_cons]
          refine ⟨?_, h4⟩
          intro hx
          obtain ⟨r, hrmem, hrt⟩ := List.mem_map.mp hx
          obtain ⟨_, _, hc2⟩ := h3 r hrmem
          exact hc2 (by rw [hrt]; exact List.mem_cons_self _ _)
      · have hstep : add_unseen ok st c = st := by
          rw [add_unseen, if_neg hseen, if_neg hok]
        obtain ⟨new, h1, h2, h3, h4⟩ := ih st
        refine ⟨new, by simpa [List.foldl_cons, hstep] using h1,
          by simpa [List.foldl_cons, hstep] using h2, ?_, h4⟩
        intro r hr
        obtain ⟨ha, hb, hc⟩ := h3 r hr
        exact ⟨List.mem_cons_of_mem _ ha, hb, hc⟩

theorem results_of_knn_strategy (metadata : List Chunk) (pairs : List (Nat × ℚ))
    (strategy : String) : ∀ r ∈ results_of_knn metadata pairs strategy,
      r.strategy = strategy := by
  intro r hr
  obtain ⟨p, _, rfl⟩ := List.mem_map.mp hr
  rfl

theorem expanded_candidates_aux (o : SearchOracle) (m : List Chunk) :
    ∀ (qs : List String) (acc : List SearchResult) (r : SearchResult),
      r ∈ qs.foldl
        (fun acc q =>
          match o.embed q with
          | none => acc
          | some v => acc ++ results_of_knn m (o.knn v 5) "expanded")
        acc →
      r ∈ acc ∨ r.strategy = "expanded" := by
  intro qs
  induction qs with
  | nil => intro acc r hr; exact Or.inl hr
  | cons q rest ih =>
    intro acc r hr
    rw [List.foldl_cons] at hr
    cases hq : o.embed q with
    | none =>
      rw [hq] at hr
      exact ih acc r hr
    | some v =>
      rw [hq] at hr
      rcases ih _ r hr with hmem | hstrat
      · rcases List.mem_append.mp hmem with hmem | hmem
        · exact Or.inl hmem
        · exact Or.inr (results_of_knn_strategy m (o.knn v 5) "expanded" r hmem)
      · exact Or.inr hstrat

theorem expanded_candidates_strategy (o : SearchOracle) (m : List Chunk) (q : String) :
    ∀ r ∈ expanded_candidates o m q, r.strategy = "expanded" := by
  intro r hr
  rcases expanded_candidates_aux o m _ [] r hr with h | h
  · cases h
  · exact h

theorem keyword_results_aux (low : String → String) (kws : List String) (threshold : Nat) :
    ∀ (metadata : List Chunk) (acc : List SearchResult) (r : SearchResult),
      r ∈ metadata.foldl
        (fun acc chunk =>
          let matched := (kws.filter (fun k => contains_sub k (low chunk.text))).length
          if threshold ≤ matched then
            acc ++ [⟨chunk.text, chunk.source, (matched : ℚ) / (kws.length : ℚ), "keyword"⟩]
          else acc)
        acc →
      r ∈ acc ∨ r.strategy = "keyword" := by
  intro metadata
  induction metadata with
  | nil => intro acc r hr; exact Or.inl hr
  | cons c rest ih =>
    intro acc r hr
    rw [List.foldl_cons] at hr
    by_cases hth : threshold ≤ (kws.filter (fun k => contains_sub k (low c.text))).length
    · simp only [hth, if_pos] at hr
      rcases ih _ r hr with hmem | hstrat
      · rcases List.mem_append.mp hmem with hmem | hmem
        · exact Or.inl hmem
        · rcases List.mem_singleton.mp hmem with rfl
          exact Or.inr rfl
      · exact Or.inr hstrat
    · simp only [hth, if_neg, if_false] at hr
      exact ih _ r hr

theorem keyword_search_strategy (low : String → String) (metadata : List Chunk)
    (kws : List String) (threshold : Nat) :
    ∀ r ∈ keyword_search low metadata kws threshold, r.strategy = "keyword" := by
  intro r hr
  unfold keyword_search at hr
  have hmem : r ∈ (metadata.foldl
      (fun acc chunk =>
        let matched := (kws.filter (fun k => contains_sub k (low chunk.text))).length
        if threshold ≤ matched then
          acc ++ [⟨chunk.text, chunk.source, (matched : ℚ) / (kws.length : ℚ), "keyword"⟩]
        else acc)
      []).mergeSort simLE := (List.take_sublist 5 _).mem hr
  rw [List.mem_mergeSort] at hmem
  rcases keyword_results_aux low kws threshold metadata [] r hmem with h | h
  · cases h
  · exact h

theorem direct_candidates_strategy (o : SearchOracle) (m : List Chunk) (q : String)
    (k : Nat) : ∀ r ∈ direct_candidates o m q k, r.strategy = "direct" := by
  intro r hr
  unfold direct_candidates at hr
  cases hq : o.embed q with
  | none => rw [hq] at hr; cases hr
  | some v =>
    rw [hq] at hr
    exact results_of_knn_strategy m (o.knn v k) "direct" r hr

/-- Decomposition of the merged pool: a block of direct results, then
expanded results, then keyword results, each strategy-tagged, each expanded
result above the 0.6 threshold, later blocks never repeating an earlier
block's text, and all texts distinct. -/
theorem search_pool_parts (o : SearchOracle) (m : List Chunk) (q : String) (k : Nat) :
    ∃ d e w : List SearchResult,
      (search_pool o m q k).1 = d ++ e ++ w ∧
      (∀ r ∈ d, r ∈ direct_candidates o m q k ∧ r.strategy = "direct") ∧
      (∀ r ∈ e, r.strategy = "expanded" ∧ (6 : ℚ)/10 < r.similarity ∧
        r.text ∉ d.map (fun r => r.text)) ∧
      (∀ r ∈ w, r.strategy = "keyword" ∧ r.text ∉ (d ++ e).map (fun r => r.text)) ∧
      ((d ++ e ++ w).map (fun r => r.text)).Nodup := by
  obtain ⟨d, hd1, hd2, hd3, hd4⟩ :=
    add_unseen_spec (fun _ => true) (direct_candidates o m q k) ([], [])
  obtain ⟨e, he1, he2, he3, he4⟩ :=
    add_unseen_spec (fun r => decide ((6 : ℚ)/10 < r.similarity))
      (expanded_candidates o m q) (direct_phase o m q k ([], []))
  have hd1' : (direct_phase o m q k ([], [])).1 = d := by
    rw [direct_phase, hd1]; rfl
  have hd2' : (direct_phase o m q k ([], [])).2 = (d.map (fun r => r.text)).reverse := by
    rw [direct_phase, hd2]; simp
  have hde : ∀ r ∈ e, r.strategy = "expanded" ∧ (6 : ℚ)/10 < r.similarity ∧
      r.text ∉ d.map (fun r => r.text) := by
    intro r hr
    obtain ⟨hm, hok, hns⟩ := he3 r hr
    refine ⟨expanded_candidates_strategy o m q r hm, of_decide_eq_true hok, ?_⟩
    rw [hd2'] at hns
    intro hx
    exact hns (List.mem_reverse.mpr hx)
  have he1' : (expanded_phase o m q (direct_phase o m q k ([], []))).1 = d ++ e := by
    rw [expanded_phase, he1, hd1']
  have he2' : (expanded_phase o m q (direct_phase o m q k ([], []))).2 =
      (e.map (fun r => r.text)).reverse ++ (d.map (fun r => r.text)).reverse := by
    rw [expanded_phase, he2, hd2']
  have hnd_de : ((d ++ e).map (fun r => r.text)).Nodup := by
    rw [List.map_append]
    refine List.nodup_append.mpr ⟨hd4, he4, ?_⟩
    intro a ha hb
    obtain ⟨r, hrmem, rfl⟩ := List.mem_map.mp hb
    exact (hde r hrmem).2.2 ha
  by_cases hkw : (o.extract_keywords q).isEmpty
  · refine ⟨d, e, [], ?_, ?_, hde, ?_, ?_⟩
    · show (keyword_phase o m q (expanded_phase o m q (direct_phase o m q k ([], [])))).1 = _
      rw [keyword_phase]
      simp only [hkw, if_true]
      rw [he1', List.append_nil]
    · intro r hr
      obtain ⟨hm, _, hns⟩ := hd3 r hr
      exact ⟨hm, direct_candidates_strategy o m q k r hm⟩
    · intro r hr; cases hr
    · simpa using hnd_de
  · obtain ⟨w, hw1, hw2, hw3, hw4⟩ :=
      add_unseen_spec (fun _ => true)
        (keyword_search o.low m (o.extract_keywords q) 1)
        (expanded_phase o m q (direct_phase o m q k ([], [])))
    have hwe : ∀ r ∈ w, r.strategy = "keyword" ∧
        r.text ∉ (d ++ e).map (fun r => r.text) := by
      intro r hr
      obtain ⟨hm, _, hns⟩ := hw3 r hr
      refine ⟨keyword_search_strategy o.low m (o.extract_keywords q) 1 r hm, ?_⟩
      rw [he2'] at hns
      intro hx
      rw [List.map_append] at hx
      rcases List.mem_append.mp hx with hx | hx
      · exact hns (List.mem_append.mpr (Or.inr (List.mem_reverse.mpr hx)))
      · exact hns (List.mem_append.mpr (Or.inl (List.mem_reverse.mpr hx)))
    refine ⟨d, e, w, ?_, ?_, hde, hwe, ?_⟩
    · show (keyword_phase o m q (expanded_phase o m q (direct_phase o m q k ([], [])))).1 = _
      rw [keyword_phase]
      simp only [hkw, Bool.false_eq_true, if_false]
      rw [hw1, he1']
    · intro r hr
      obtain ⟨hm, _, _⟩ := hd3 r hr
      exact ⟨hm, direct_candidates_strategy o m q k r hm⟩
    · rw [List.map_append]
      refine List.nodup_append.mpr ⟨hnd_de, hw4, ?_⟩
      intro a ha hb
      obtain ⟨r, hrmem, rfl⟩ := List.mem_map.mp hb
      exact (hwe r hrmem).2 ha

/-- In a duplicate-free list, a pair that occurs in order, whose second
element lies in the prefix `take n`, occurs in order inside that prefix. -/
theorem pair_sublist_take {α : Type} {l : List α} {n : Nat} (hnd : l.Nodup)
    {a b : α} (h : [a, b] <+ l) (hb : b ∈ l.take n) : [a, b] <+ l.take n := by
  have hsplit : [a, b] <+ l.take n ++ l.drop n := by rwa [List.take_append_drop]
  obtain ⟨l₁, l₂, heq, h₁, h₂⟩ := List.sublist_append_iff.mp hsplit
  have hdisj : (l.take n).Disjoint (l.drop n) := by
    have h0 := hnd
    rw [← List.take_append_drop n l] at h0
    exact (List.nodup_append.mp h0).2.2
  match l₁, heq with
  | [], heq =>
    rw [List.nil_append] at heq
    rw [← heq] at h₂
    exact absurd (h₂.subset (by simp)) (fun hx => hdisj hb hx)
  | [x], heq =>
    have hxa : x = a ∧ l₂ = [b] := by
      simp only [List.cons_append, List.nil_append, List.cons.injEq] at heq
      exact ⟨heq.1.symm, heq.2.symm⟩
    rw [hxa.2] at h₂
    exact absurd (h₂.subset (by simp)) (fun hx => hdisj hb hx)
  | x :: y :: tail, heq =>
    have : x = a ∧ y = b ∧ tail = [] ∧ l₂ = [] := by
      simp only [List.cons_append, List.cons.injEq] at heq
      obtain ⟨ha, hb2, htail⟩ := heq
      have h3 := List.append_eq_nil.mp htail.symm
      exact ⟨ha.symm, hb2.symm, h3.1, h3.2⟩
    obtain ⟨rfl, rfl, rfl, rfl⟩ := this
    simpa using h₁

/-- C3: for every oracle, corpus, question and `topK`, the list returned by
`search` has length at most `topK`, is sorted in non-increasing order of
similarity, and ties are broken by pool insertion order: a direct-strategy
result precedes any equal-similarity expanded or keyword result (stated as:
whenever both appear in the output, the ordered pair with the direct result
first is a sublist of the output). -/
theorem c3_search_ranking (o : SearchOracle) (m : List Chunk) (q : String) (k : Nat) :
    (search o m q k).length ≤ k ∧
    List.Pairwise (fun a b : SearchResult => b.similarity ≤ a.similarity)
      (search o m q k) ∧
    (∀ x y, x ∈ search o m q k → y ∈ search o m q k → y.strategy = "direct" →
      x.strategy ≠ "direct" → x.similarity = y.similarity →
      [y, x] <+ search o m q k) := by
  refine ⟨?_, ?_, ?_⟩
  · rw [search, List.length_take]
    exact min_le_left _ _
  · have hs := List.sorted_mergeSort simLE_trans' simLE_total'
      (search_pool o m q k).1
    have hs2 : List.Pairwise (fun a b : SearchResult => b.similarity ≤ a.similarity)
        ((search_pool o m q k).1.mergeSort simLE) :=
      hs.imp (fun h => by simpa [simLE] using h)
    exact List.Pairwise.sublist (List.take_sublist k _) hs2
  · intro x y hx hy hyd hxnd hsim
    obtain ⟨d, e, w, hpool, hd, he, hw, hnd⟩ := search_pool_parts o m q k
    have hxs : x ∈ (search_pool o m q k).1.mergeSort simLE :=
      (List.take_sublist k _).subset hx
    have hys : y ∈ (search_pool o m q k).1.mergeSort simLE :=
      (List.take_sublist k _).subset hy
    have hxp : x ∈ (search_pool o m q k).1 := List.mem_mergeSort.mp hxs
    have hyp : y ∈ (search_pool o m q k).1 := List.mem_mergeSort.mp hys
    rw [hpool] at hxp hyp
    have hyd' : y ∈ d := by
      rcases List.mem_append.mp hyp with hm | hm
      · rcases List.mem_append.mp hm with hm2 | hm2
        · exact hm2
        · exact absurd ((he y hm2).1 ▸ hyd) (by decide)
      · exact absurd ((hw y hm).1 ▸ hyd) (by decide)
    have hxew : x ∈ e ++ w := by
      rcases List.mem_append.mp hxp with hm | hm
      · rcases List.mem_append.mp hm with hm2 | hm2
        · exact absurd (hd x hm2).2 hxnd
        · exact List.mem_append.mpr (Or.inl hm2)
      · exact List.mem_append.mpr (Or.inr hm)
    have hsub : [y, x] <+ (search_pool o m q k).1 := by
      rw [hpool, List.append_assoc]
      exact List.Sublist.append (List.singleton_sublist.mpr hyd')
        (List.singleton_sublist.mpr hxew)
    have hle : simLE y x = true := by
      simp [simLE, hsim]
    have hsorted : [y, x] <+ (search_pool o m q k).1.mergeSort simLE :=
      List.pair_sublist_mergeSort simLE_trans' simLE_total' hle hsub
    have hpnd : ((search_pool o m q k).1.map (fun r => r.text)).Nodup := by
      rw [hpool]; exact hnd
    have hpoolnd : (search_pool o m q k).1.Nodup := List.Nodup.of_map _ hpnd
    have hmnd : ((search_pool o m q k).1.mergeSort simLE).Nodup :=
      (List.mergeSort_perm (search_pool o m q k).1 simLE).nodup_iff.mpr hpoolnd
    exact pair_sublist_take hmnd hsorted hx

/-- C3 (witness): the ranking theorem applied to a concrete oracle. -/
theorem c3_search_ranking_witness :
    (search triv_oracle [] "q" 3).length ≤ 3 ∧
    List.Pairwise (fun a b : SearchResult => b.similarity ≤ a.similarity)
      (search triv_oracle [] "q" 3) :=
  ⟨(c3_search_ranking triv_oracle [] "q" 3).1,
   (c3_search_ranking triv_oracle [] "q" 3).2.1⟩

/-- C4: no two results returned by `search` share the same fragment text; the
pool decomposes into the direct block followed by the expanded and keyword
blocks, where a later block never repeats the text of an earlier one (the
first strategy to produce a text wins and later duplicates are dropped), and
all pool texts are pairwise distinct. -/
theorem c4_search_dedup (o : SearchOracle) (m : List Chunk) (q : String) (k : Nat) :
    ((search o m q k).map (fun r => r.text)).Nodup ∧
    ∃ d e w : List SearchResult,
      (search_pool o m q k).1 = d ++ e ++ w ∧
      (∀ r ∈ d, r.strategy = "direct") ∧
      (∀ r ∈ e, r.strategy = "expanded" ∧ r.text ∉ d.map (fun r => r.text)) ∧
      (∀ r ∈ w, r.strategy = "keyword" ∧ r.text ∉ (d ++ e).map (fun r => r.text)) ∧
      ((search_pool o m q k).1.map (fun r => r.text)).Nodup := by
  obtain ⟨d, e, w, hpool, hd, he, hw, hnd⟩ := search_pool_parts o m q k
  have hpnd : ((search_pool o m q k).1.map (fun r => r.text)).Nodup := by
    rw [hpool]; exact hnd
  refine ⟨?_, d, e, w, hpool, fun r hr => (hd r hr).2,
    fun r hr => ⟨(he r hr).1, (he r hr).2.2⟩, hw, hpnd⟩
  have hperm : ((search_pool o m q k).1.mergeSort simLE).map (fun r => r.text) ~
      (search_pool o m q k).1.map (fun r => r.text) :=
    (List.mergeSort_perm (search_pool o m q k).1 simLE).map _
  have hsortnd : (((search_pool o m q k).1.mergeSort simLE).map
      (fun r => r.text)).Nodup := hperm.nodup_iff.mpr hpnd
  rw [search, List.map_take]
  exact (List.take_sublist k _).nodup hsortnd

/-- C4 (witness): the deduplication theorem applied to a concrete oracle. -/
theorem c4_search_dedup_witness :
    ((search kw_oracle kw_metadata "q" 5).map (fun r => r.text)).Nodup :=
  (c4_search_dedup kw_oracle kw_metadata "q" 5).1

/-- C10: when the question's own embedding is unavailable (`get_embedding`
returned `None` because the service errored), `search` still returns
normally, the direct strategy contributes no candidates at all, and every
returned result carries the expanded or keyword strategy. -/
theorem c10_direct_unavailable (o : SearchOracle) (m : List Chunk) (q : String)
    (k : Nat) (h : o.embed q = none) :
    direct_candidates o m q k = [] ∧
    ∀ r ∈ search o m q k, r.strategy = "expanded" ∨ r.strategy = "keyword" := by
  have hdc : direct_candidates o m q k = [] := by
    unfold direct_candidates
    rw [h]
  refine ⟨hdc, ?_⟩
  intro r hr
  obtain ⟨d, e, w, hpool, hd, he, hw, _⟩ := search_pool_parts o m q k
  have hrp : r ∈ (search_pool o m q k).1 :=
    List.mem_mergeSort.mp ((List.take_sublist k _).subset hr)
  rw [hpool] at hrp
  rcases List.mem_append.mp hrp with hm | hm
  · rcases List.mem_append.mp hm with hm2 | hm2
    · have := (hd r hm2).1
      rw [hdc] at this
      cases this
    · exact Or.inl (he r hm2).1
  · exact Or.inr (hw r hm).1

/-- C10 (witness): with the oracle whose embedding service is down, the
direct strategy contributes nothing and every result of a concrete search is
expanded- or keyword-tagged. -/
theorem c10_direct_unavailable_witness :
    triv_oracle.embed "q" = none ∧
    direct_candidates triv_oracle [] "q" 5 = [] ∧
    ∀ r ∈ search triv_oracle [] "q" 5,
      r.strategy = "expanded" ∨ r.strategy = "keyword" :=
  ⟨rfl, (c10_direct_unavailable triv_oracle [] "q" 5 rfl).1,
   (c10_direct_unavailable triv_oracle [] "q" 5 rfl).2⟩

theorem match_embed_append (o : SearchOracle) (m : List Chunk)
    (acc : List SearchResult) (q : String) :
    (match o.embed q with
     | none => acc
     | some v => acc ++ results_of_knn m (o.knn v 5) "expanded") =
    acc ++ (match o.embed q with
     | none => []
     | some v => results_of_knn m (o.knn v 5) "expanded") := by
  cases o.embed q <;> simp

theorem foldl_flatten_fold {α β σ : Type} (g : α → List β) (f : σ → β → σ) :
    ∀ (qs : List α) (acc0 : List β) (st : σ),
      (qs.foldl (fun acc q => acc ++ g q) acc0).foldl f st =
        qs.foldl (fun st1 q => (g q).foldl f st1) (acc0.foldl f st) := by
  intro qs
  induction qs with
  | nil => intro acc0 st; rfl
  | cons q rest ih =>
    intro acc0 st
    rw [List.foldl_cons, ih (acc0 ++ g q) st, List.foldl_cons, List.foldl_append]

theorem add_unseen_expanded_eq (st : List SearchResult × List String) (r : SearchResult) :
    add_unseen (fun r => decide ((6 : ℚ)/10 < r.similarity)) st r =
      if r.text ∉ st.2 ∧ (6 : ℚ)/10 < r.similarity then (st.1 ++ [r], r.text :: st.2)
      else st := by
  rw [add_unseen]
  by_cases hseen : r.text ∈ st.2
  · rw [if_pos hseen, if_neg (by simp [hseen])]
  · rw [if_neg hseen]
    by_cases hsim : (6 : ℚ)/10 < r.similarity
    · rw [if_pos (decide_eq_true hsim), if_pos ⟨hseen, hsim⟩]
    · rw [if_neg (by simpa using hsim), if_neg (by simp [hsim])]

/-- C7: the expanded strategy of `search` coincides with its specification:
it embeds and queries exactly the queried rewrites — the first two generated
rewrites, excluding the unmodified question — requesting 5 nearest neighbours
per rewrite; at most two rewrites are queried, each differs from the question
and is drawn from the generated rewrites; and every result the phase admits
to the pool carries `strategy = expanded`, has similarity strictly greater
than `0.6`, and has a text not already present in the pool. -/
theorem c7_expanded_strategy (o : SearchOracle) (m : List Chunk) (q : String)
    (st : List SearchResult × List String) :
    expanded_phase o m q st = expanded_phase_spec o m q st ∧
    (queried_rewrites o.low q).length ≤ 2 ∧
    (∀ s ∈ queried_rewrites o.low q, ¬(s = q) ∧ s ∈ (expand_query o.low q).drop 1) ∧
    ∃ new : List SearchResult, (expanded_phase o m q st).1 = st.1 ++ new ∧
      ∀ r ∈ new, r.strategy = "expanded" ∧ (6 : ℚ)/10 < r.similarity ∧
        r.text ∉ st.2 := by
  refine ⟨?_, ?_, ?_, ?_⟩
  · unfold expanded_phase expanded_phase_spec expanded_candidates queried_rewrites
    simp only [match_embed_append]
    rw [foldl_flatten_fold
      (fun q2 => match o.embed q2 with
        | none => []
        | some v => results_of_knn m (o.knn v 5) "expanded")
      (add_unseen (fun r => decide ((6 : ℚ)/10 < r.similarity))) _ [] st]
    have hfun :
        (fun (st1 : List SearchResult × List String) (q2 : String) =>
          (match o.embed q2 with
            | none => []
            | some v => results_of_knn m (o.knn v 5) "expanded").foldl
            (add_unseen (fun r => decide ((6 : ℚ)/10 < r.similarity))) st1) =
        (fun (st1 : List SearchResult × List String) (q2 : String) =>
          match o.embed q2 with
          | none => st1
          | some v =>
            (results_of_knn m (o.knn v 5) "expanded").foldl
              (fun st2 r =>
                if r.text ∉ st2.2 ∧ (6 : ℚ)/10 < r.similarity then
                  (st2.1 ++ [r], r.text :: st2.2)
                else st2)
              st1) := by
      funext st1 q2
      cases o.embed q2 with
      | none => rfl
      | some v =>
        have hau : add_unseen (fun r => decide ((6 : ℚ)/10 < r.similarity)) =
            (fun (st2 : List SearchResult × List String) (r : SearchResult) =>
              if r.text ∉ st2.2 ∧ (6 : ℚ)/10 < r.similarity then
                (st2.1 ++ [r], r.text :: st2.2)
              else st2) := by
          funext st2 r
          exact add_unseen_expanded_eq st2 r
        simp only []
        rw [hau]
    rw [hfun]
    rfl
  · calc (queried_rewrites o.low q).length
        ≤ (((expand_query o.low q).drop 1).take 2).length :=
          List.length_filter_le _ _
      _ ≤ 2 := by rw [List.length_take]; exact min_le_left _ _
  · intro s hs
    unfold queried_rewrites at hs
    have hmem := List.mem_filter.mp hs
    refine ⟨by simpa using hmem.2, List.mem_of_mem_take hmem.1⟩
  · obtain ⟨new, h1, _, h3, _⟩ :=
      add_unseen_spec (fun r => decide ((6 : ℚ)/10 < r.similarity))
        (expanded_candidates o m q) st
    refine ⟨new, h1, ?_⟩
    intro r hr
    obtain ⟨hmem, hok, hns⟩ := h3 r hr
    exact ⟨expanded_candidates_strategy o m q r hmem, of_decide_eq_true hok, hns⟩

/-- C7 (witness): the expanded-strategy theorem applied to a concrete
oracle: the phase equals its specification and at most two rewrites are
queried. -/
theorem c7_expanded_strategy_witness :
    expanded_phase triv_oracle [] "q" ([], []) =
      expanded_phase_spec triv_oracle [] "q" ([], []) ∧
    (queried_rewrites triv_oracle.low "q").length ≤ 2 :=
  ⟨(c7_expanded_strategy triv_oracle [] "q" ([], [])).1,
   (c7_expanded_strategy triv_oracle [] "q" ([], [])).2.1⟩

/-! ### Context builder lemmas -/

theorem lookup_isSome_of_mem_keys {β : Type} :
    ∀ (l : List (String × β)) (k : String), k ∈ l.map Prod.fst →
      (l.lookup k).isSome = true := by
  intro l
  induction l with
  | nil => intro k hk; cases hk
  | cons p rest ih =>
    intro k hk
    rw [List.map_cons] at hk
    rw [List.lookup_cons]
    rcases List.mem_cons.mp hk with hk | hk
    · have hb : (k == p.1) = true := by rw [hk]; exact beq_self_eq_true p.1
      rw [hb]
      rfl
    · cases hbeq : (k == p.1) with
      | true => rfl
      | false => exact ih k hk

theorem group_by_source_aux :
    ∀ (results : List SearchResult) (acc : List (String × List SearchResult)),
      (acc.map Prod.fst).Nodup →
      (∀ p ∈ acc, ∀ r ∈ p.2, r.source = p.1) →
      (((results.foldl
          (fun acc r =>
            if (acc.lookup r.source).isSome then
              acc.map (fun p => if p.1 == r.source then (p.1, p.2 ++ [r]) else p)
            else acc ++ [(r.source, [r])])
          acc).map Prod.fst).Nodup ∧
        ∀ p ∈ results.foldl
          (fun acc r =>
            if (acc.lookup r.source).isSome then
              acc.map (fun p => if p.1 == r.source then (p.1, p.2 ++ [r]) else p)
            else acc ++ [(r.source, [r])])
          acc, ∀ r ∈ p.2, r.source = p.1) := by
  intro results
  induction results with
  | nil => intro acc h1 h2; exact ⟨h1, h2⟩
  | cons r rest ih =>
    intro acc h1 h2
    rw [List.foldl_cons]
    by_cases hl : (acc.lookup r.source).isSome
    · rw [if_pos hl]
      refine ih _ ?_ ?_
      · have hkeys : (acc.map (fun p => if p.1 == r.source then (p.1, p.2 ++ [r]) else p)).map
            Prod.fst = acc.map Prod.fst := by
          rw [List.map_map]
          refine List.map_congr_left ?_
          intro p _
          by_cases hp : p.1 = r.source
          · simp [hp]
          · simp [hp]
        rw [hkeys]
        exact h1
      · intro p hp r2 hr2
        obtain ⟨p0, hp0, hpe⟩ := List.mem_map.mp hp
        by_cases hb : (p0.1 == r.source) = true
        · rw [if_pos hb] at hpe
          subst hpe
          simp only []
          rcases List.mem_append.mp hr2 with hm | hm
          · exact h2 p0 hp0 r2 hm
          · rcases List.mem_singleton.mp hm with rfl
            exact (eq_of_beq hb).symm
        · rw [if_neg hb] at hpe
          subst hpe
          exact h2 p0 hp0 r2 hr2
    · rw [if_neg hl]
      refine ih _ ?_ ?_
      · rw [List.map_append]
        refine List.nodup_append.mpr ⟨h1, by simp, ?_⟩
        intro a ha hb
        simp only [List.map_cons, List.map_nil, List.mem_singleton] at hb
        subst hb
        exact hl (lookup_isSome_of_mem_keys acc r.source ha)
      · intro p hp r2 hr2
        rcases List.mem_append.mp hp with hm | hm
        · exact h2 p hm r2 hr2
        · rcases List.mem_singleton.mp hm with rfl
          rcases List.mem_singleton.mp hr2 with rfl
          rfl

theorem group_by_source_spec (results : List SearchResult) :
    ((group_by_source results).map Prod.fst).Nodup ∧
    ∀ p ∈ group_by_source results, ∀ r ∈ p.2, r.source = p.1 :=
  group_by_source_aux results [] (by simp) (by intro p hp; cases hp)

theorem countP_flatten {α : Type} (p : α → Bool) :
    ∀ (L : List (List α)), (L.flatten).countP p = (L.map (List.countP p)).sum := by
  intro L
  induction L with
  | nil => rfl
  | cons l rest ih => simp [List.countP_append, ih]

theorem context_parts_eq (results : List SearchResult) :
    context_parts results =
      ((group_by_source results).map
        (fun p => ((p.2.mergeSort simLE).take 10).filter
          (fun r => decide ((2 : ℚ)/10 < r.similarity)))).flatten := by
  rw [context_parts, foldl_append_eq_join]
  rfl

theorem context_group_mem (p : String × List SearchResult) (r : SearchResult)
    (hr : r ∈ ((p.2.mergeSort simLE).take 10).filter
      (fun r => decide ((2 : ℚ)/10 < r.similarity))) :
    r ∈ p.2 ∧ (2 : ℚ)/10 < r.similarity := by
  obtain ⟨hm, hsim⟩ := List.mem_filter.mp hr
  refine ⟨?_, of_decide_eq_true hsim⟩
  exact List.mem_mergeSort.mp ((List.take_sublist 10 _).subset hm)

theorem per_source_count (s : String) :
    ∀ (groups : List (String × List SearchResult)),
      (groups.map Prod.fst).Nodup →
      (∀ p ∈ groups, ∀ r ∈ p.2, r.source = p.1) →
      ((groups.map
        (fun p => ((p.2.mergeSort simLE).take 10).filter
          (fun r => decide ((2 : ℚ)/10 < r.similarity)))).map
        (List.countP (fun r => r.source == s))).sum ≤ 10 := by
  intro groups
  induction groups with
  | nil => intro _ _; simp
  | cons p rest ih =>
    intro h1 h2
    rw [List.map_cons, List.map_cons, List.sum_cons]
    rw [List.map_cons, List.nodup_cons] at h1
    by_cases hps : p.1 = s
    · have hrest : ((rest.map
          (fun p => ((p.2.mergeSort simLE).take 10).filter
            (fun r => decide ((2 : ℚ)/10 < r.similarity)))).map
          (List.countP (fun r => r.source == s))).sum = 0 := by
        refine List.sum_eq_zero ?_
        intro x hx
        obtain ⟨gl, hgl, rfl⟩ := List.mem_map.mp hx
        obtain ⟨p2, hp2, rfl⟩ := List.mem_map.mp hgl
        refine List.countP_eq_zero.mpr ?_
        intro r hrm
        have hsrc := (h2 p2 (List.mem_cons_of_mem _ hp2) r (context_group_mem p2 r hrm).1)
        have hne : p2.1 ≠ s := by
          intro hcon
          exact h1.1 (by rw [← hcon] at hps; rw [hps]; exact List.mem_map_of_mem _ hp2)
        simp [hsrc, hne]
      rw [hrest]
      have hlen : (((p.2.mergeSort simLE).take 10).filter
          (fun r => decide ((2 : ℚ)/10 < r.similarity))).length ≤ 10 := by
        calc (((p.2.mergeSort simLE).take 10).filter
              (fun r => decide ((2 : ℚ)/10 < r.similarity))).length
            ≤ ((p.2.mergeSort simLE).take 10).length := List.length_filter_le _ _
          _ ≤ 10 := by rw [List.length_take]; exact min_le_left _ _
      have := List.countP_le_length (p := fun r => r.source == s)
        (l := ((p.2.mergeSort simLE).take 10).filter
          (fun r => decide ((2 : ℚ)/10 < r.similarity)))
      omega
    · have hzero : (((p.2.mergeSort simLE).take 10).filter
          (fun r => decide ((2 : ℚ)/10 < r.similarity))).countP
          (fun r => r.source == s) = 0 := by
        refine List.countP_eq_zero.mpr ?_
        intro r hrm
        have hsrc := h2 p (List.mem_cons_self _ _) r (context_group_mem p r hrm).1
        simp [hsrc, hps]
      rw [hzero]
      have := ih h1.2 (fun p2 hp2 => h2 p2 (List.mem_cons_of_mem _ hp2))
      omega

/-- C8: every fragment emitted by `create_context` has similarity strictly
greater than `0.2`; at most 10 emitted fragments come from any single source
(the per-source top-10 by similarity, with the weak-match filter applied
after that truncation); the number of emitted blocks is at most
`max_context_length`; the empty result list yields the empty string; and for
nonempty input the context string is the joined rendering of the emitted
fragments. -/
theorem c8_context_builder (fmt : ℚ → String) (maxLen : Nat)
    (results : List SearchResult) :
    (∀ r ∈ (context_parts results).take maxLen, (2 : ℚ)/10 < r.similarity) ∧
    (∀ s : String,
      ((context_parts results).take maxLen).countP (fun r => r.source == s) ≤ 10) ∧
    ((context_parts results).take maxLen).length ≤ maxLen ∧
    create_context fmt maxLen [] = "" ∧
    (results ≠ [] → create_context fmt maxLen results =
      String.intercalate "\n---\n"
        (((context_parts results).take maxLen).map (render_block fmt))) := by
  refine ⟨?_, ?_, ?_, rfl, ?_⟩
  · intro r hr
    have hr2 : r ∈ context_parts results := (List.take_sublist maxLen _).subset hr
    rw [context_parts_eq] at hr2
    obtain ⟨gl, hgl, hrgl⟩ := List.mem_flatten.mp hr2
    obtain ⟨p, hp2, rfl⟩ := List.mem_map.mp hgl
    exact (context_group_mem p r hrgl).2
  · intro s
    obtain ⟨h1, h2⟩ := group_by_source_spec results
    calc ((context_parts results).take maxLen).countP (fun r => r.source == s)
        ≤ (context_parts results).countP (fun r => r.source == s) :=
          (List.take_sublist maxLen _).countP_le _
      _ ≤ 10 := by
          rw [context_parts_eq, countP_flatten]
          exact per_source_count s (group_by_source results) h1 h2
  · rw [List.length_take]
    exact min_le_left _ _
  · intro hne
    rw [create_context, if_neg (by simpa using hne)]

/-- C8 (witness): the context-builder theorem applied to the one-result
list: the empty input yields the empty string and at most 10 emitted blocks
come from the source `"s"`. -/
theorem c8_context_builder_witness :
    create_context triv_fmt 32 [] = "" ∧
    ((context_parts one_result).take 32).countP (fun r => r.source == "s") ≤ 10 :=
  ⟨(c8_context_builder triv_fmt 32 one_result).2.2.2.1,
   (c8_context_builder triv_fmt 32 one_result).2.1 "s"⟩

/-! ### Embedding cache lemmas -/

theorem insert_assoc_lookup_map_self (k : String) (v : List ℚ) :
    ∀ (m : List (String × List ℚ)), (m.lookup k).isSome = true →
      (m.map (fun p => if p.1 == k then (p.1, v) else p)).lookup k = some v := by
  intro m
  induction m with
  | nil => intro hs; cases hs
  | cons p rest ih =>
    intro hs
    rw [List.lookup_cons] at hs
    rw [List.map_cons]
    cases hb : (k == p.1) with
    | true =>
      have hkp : k = p.1 := eq_of_beq hb
      have hpk : (p.1 == k) = true := by rw [hkp]; exact beq_self_eq_true p.1
      rw [if_pos hpk, List.lookup_cons, hb]
    | false =>
      have hpk : (p.1 == k) = false := by
        refine beq_eq_false_iff_ne.mpr ?_
        intro hcon
        rw [hcon] at hb
        rw [beq_self_eq_true] at hb
        cases hb
      rw [if_neg (by simp [hpk]), List.lookup_cons, hb]
      rw [hb] at hs
      exact ih hs

theorem lookup_append_single_self {β : Type} (k : String) (v : β) :
    ∀ (m : List (String × β)), m.lookup k = none →
      (m ++ [(k, v)]).lookup k = some v := by
  intro m
  induction m with
  | nil =>
    intro _
    rw [List.nil_append, List.lookup_cons, beq_self_eq_true]
  | cons p rest ih =>
    intro hn
    rw [List.lookup_cons] at hn
    rw [List.cons_append, List.lookup_cons]
    cases hb : (k == p.1) with
    | true => rw [hb] at hn; cases hn
    | false => rw [hb] at hn; exact ih hn

theorem lookup_append_single_other {β : Type} (k k' : String) (v : β) (hne : k' ≠ k) :
    ∀ (m : List (String × β)), (m ++ [(k, v)]).lookup k' = m.lookup k' := by
  intro m
  induction m with
  | nil =>
    rw [List.nil_append, List.lookup_cons, List.lookup_nil]
    have hb : (k' == k) = false := beq_eq_false_iff_ne.mpr hne
    rw [hb]
  | cons p rest ih =>
    rw [List.cons_append, List.lookup_cons, List.lookup_cons]
    cases hb : (k' == p.1) with
    | true => rfl
    | false => exact ih

theorem lookup_map_update_other (k k' : String) (v : List ℚ) (hne : k' ≠ k) :
    ∀ (m : List (String × List ℚ)),
      (m.map (fun p => if p.1 == k then (p.1, v) else p)).lookup k' = m.lookup k' := by
  intro m
  induction m with
  | nil => rfl
  | cons p rest ih =>
    rw [List.map_cons]
    by_cases hpk : (p.1 == k) = true
    · have hkb : (k' == p.1) = false := by
        refine beq_eq_false_iff_ne.mpr ?_
        rw [eq_of_beq hpk]
        exact hne
      rw [if_pos hpk, List.lookup_cons, List.lookup_cons, hkb]
      exact ih
    · rw [if_neg hpk, List.lookup_cons, List.lookup_cons]
      cases hb : (k' == p.1) with
      | true => rfl
      | false => exact ih

theorem insert_assoc_lookup_self (m : List (String × List ℚ)) (k : String) (v : List ℚ) :
    (insert_assoc m k v).lookup k = some v := by
  rw [insert_assoc]
  by_cases hs : (m.lookup k).isSome = true
  · rw [if_pos hs]
    exact insert_assoc_lookup_map_self k v m hs
  · rw [if_neg hs]
    exact lookup_append_single_self k v m (Option.not_isSome_iff_eq_none.mp hs)

theorem insert_assoc_lookup_other (m : List (String × List ℚ)) (k k' : String)
    (v : List ℚ) (hne : k' ≠ k) :
    (insert_assoc m k v).lookup k' = m.lookup k' := by
  rw [insert_assoc]
  by_cases hs : (m.lookup k).isSome = true
  · rw [if_pos hs]
    exact lookup_map_update_other k k' v hne m
  · rw [if_neg hs]
    exact lookup_append_single_other k k' v hne m

theorem lookup_map_addidx_self (t : String) (i : Nat) :
    ∀ (m : List (String × List Nat)) (w : List Nat), m.lookup t = some w →
      (m.map (fun p => if p.1 == t then (p.1, p.2 ++ [i]) else p)).lookup t =
        some (w ++ [i]) := by
  intro m
  induction m with
  | nil => intro w hw; cases hw
  | cons p rest ih =>
    intro w hw
    rw [List.lookup_cons] at hw
    rw [List.map_cons]
    cases hb : (t == p.1) with
    | true =>
      rw [hb] at hw
      have hp1 : t = p.1 := eq_of_beq hb
      have hpt : (p.1 == t) = true := by rw [hp1]; exact beq_self_eq_true p.1
      rw [if_pos hpt, List.lookup_cons, hb]
      simp only [Option.some.injEq] at hw
      rw [← hw]
    | false =>
      rw [hb] at hw
      have hpt : (p.1 == t) = false := by
        refine beq_eq_false_iff_ne.mpr ?_
        intro hcon
        rw [hcon] at hb
        rw [beq_self_eq_true] at hb
        cases hb
      rw [if_neg (by simp [hpt]), List.lookup_cons, hb]
      exact ih w hw

theorem lookup_map_addidx_other (t t' : String) (i : Nat) (hne : t' ≠ t) :
    ∀ (m : List (String × List Nat)),
      (m.map (fun p => if p.1 == t then (p.1, p.2 ++ [i]) else p)).lookup t' =
        m.lookup t' := by
  intro m
  induction m with
  | nil => rfl
  | cons p rest ih =>
    rw [List.map_cons]
    by_cases hpk : (p.1 == t) = true
    · have hkb : (t' == p.1) = false := by
        refine beq_eq_false_iff_ne.mpr ?_
        rw [eq_of_beq hpk]
        exact hne
      rw [if_pos hpk, List.lookup_cons, List.lookup_cons, hkb]
      exact ih
    · rw [if_neg hpk, List.lookup_cons, List.lookup_cons]
      cases hb : (t' == p.1) with
      | true => rfl
      | false => exact ih

theorem add_index_lookup_self (oi : List (String × List Nat)) (t : String) (i : Nat) :
    (add_index oi t i).lookup t = some ((oi.lookup t).getD [] ++ [i]) := by
  rw [add_index]
  by_cases hs : (oi.lookup t).isSome = true
  · rw [if_pos hs]
    obtain ⟨w, hw⟩ := Option.isSome_iff_exists.mp hs
    rw [hw]
    exact lookup_map_addidx_self t i oi w hw
  · rw [if_neg hs]
    have hn := Option.not_isSome_iff_eq_none.mp hs
    rw [hn]
    simp only [Option.getD_none, List.nil_append]
    exact lookup_append_single_self t [i] oi hn

theorem add_index_lookup_other (oi : List (String × List Nat)) (t t' : String)
    (i : Nat) (hne : t' ≠ t) :
    (add_index oi t i).lookup t' = oi.lookup t' := by
  rw [add_index]
  by_cases hs : (oi.lookup t).isSome = true
  · rw [if_pos hs]
    exact lookup_map_addidx_other t t' i hne oi
  · rw [if_neg hs]
    exact lookup_append_single_other t t' [i] hne oi

theorem add_index_keys (oi : List (String × List Nat)) (t : String) (i : Nat) :
    (add_index oi t i).map Prod.fst =
      if (oi.lookup t).isSome then oi.map Prod.fst else oi.map Prod.fst ++ [t] := by
  rw [add_index]
  by_cases hs : (oi.lookup t).isSome = true
  · rw [if_pos hs, if_pos hs, List.map_map]
    refine List.map_congr_left ?_
    intro p _
    by_cases hp : p.1 = t
    · simp [hp]
    · simp [hp]
  · rw [if_neg hs, if_neg hs, List.map_append]
    rfl

theorem mem_enumFrom_spec {α : Type} (l : List α) :
    ∀ (n : Nat) (p : Nat × α), p ∈ l.enumFrom n → n ≤ p.1 ∧ l[p.1 - n]? = some p.2 := by
  induction l with
  | nil => intro n p hp; cases hp
  | cons a t ih =>
    intro n p hp
    rw [List.enumFrom] at hp
    rcases List.mem_cons.mp hp with hp | hp
    · subst hp
      simp
    · obtain ⟨h1, h2⟩ := ih (n + 1) p hp
      refine ⟨by omega, ?_⟩
      rw [show p.1 - n = (p.1 - (n + 1)) + 1 from by omega, List.getElem?_cons_succ]
      exact h2

theorem getElem_mem_enumFrom {α : Type} (l : List α) :
    ∀ (j n : Nat) (x : α), l[j]? = some x → (n + j, x) ∈ l.enumFrom n := by
  induction l with
  | nil => intro j n x hx; rw [List.getElem?_nil] at hx; cases hx
  | cons a t ih =>
    intro j n x hx
    cases j with
    | zero =>
      rw [List.getElem?_cons_zero] at hx
      injection hx with hx
      subst hx
      rw [List.enumFrom]
      exact List.mem_cons_self _ _
    | succ j2 =>
      rw [List.getElem?_cons_succ] at hx
      have hmem := ih j2 (n + 1) x hx
      rw [show n + (j2 + 1) = (n + 1) + j2 from by omega, List.enumFrom]
      exact List.mem_cons_of_mem _ hmem

theorem oi_fold_spec (h : String → String) (cache : List (String × List ℚ))
    (texts : List String) :
    ∀ (ps : List (Nat × String)) (oi0 : List (String × List Nat)),
      (∀ t idx, idx ∈ (oi0.lookup t).getD [] →
        texts[idx]? = some t ∧ cache.lookup (h t) = none) →
      (∀ p ∈ ps, texts[p.1]? = some p.2) →
      (oi0.map Prod.fst).Nodup →
      (∀ t ∈ oi0.map Prod.fst, cache.lookup (h t) = none) →
      (∀ t idx,
        idx ∈ ((ps.foldl
          (fun oi p => if (cache.lookup (h p.2)).isSome then oi else add_index oi p.2 p.1)
          oi0).lookup t).getD [] →
        texts[idx]? = some t ∧ cache.lookup (h t) = none) ∧
      (∀ t idx, idx ∈ (oi0.lookup t).getD [] →
        idx ∈ ((ps.foldl
          (fun oi p => if (cache.lookup (h p.2)).isSome then oi else add_index oi p.2 p.1)
          oi0).lookup t).getD []) ∧
      (∀ p ∈ ps, cache.lookup (h p.2) = none →
        p.1 ∈ ((ps.foldl
          (fun oi p => if (cache.lookup (h p.2)).isSome then oi else add_index oi p.2 p.1)
          oi0).lookup p.2).getD []) ∧
      ((ps.foldl
          (fun oi p => if (cache.lookup (h p.2)).isSome then oi else add_index oi p.2 p.1)
          oi0).map Prod.fst).Nodup ∧
      (∀ t ∈ (ps.foldl
          (fun oi p => if (cache.lookup (h p.2)).isSome then oi else add_index oi p.2 p.1)
          oi0).map Prod.fst, cache.lookup (h t) = none) := by
  intro ps
  induction ps with
  | nil =>
    intro oi0 hsound hps hnd hmissed
    exact ⟨hsound, fun t idx hidx => hidx, fun p hp => absurd hp (by simp), hnd, hmissed⟩
  | cons p rest ih =>
    intro oi0 hsound hps hnd hmissed
    simp only [List.foldl_cons]
    by_cases hhit : (cache.lookup (h p.2)).isSome = true
    · rw [if_pos hhit]
      obtain ⟨c1, c2, c3, c4, c5⟩ := ih oi0 hsound
        (fun p2 hp2 => hps p2 (List.mem_cons_of_mem _ hp2)) hnd hmissed
      refine ⟨c1, c2, ?_, c4, c5⟩
      intro p2 hp2 hm
      rcases List.mem_cons.mp hp2 with hp2 | hp2
      · subst hp2
        rw [hm] at hhit
        cases hhit
      · exact c3 p2 hp2 hm
    · rw [if_neg hhit]
      have hmiss : cache.lookup (h p.2) = none := Option.not_isSome_iff_eq_none.mp hhit
      have hsound1 : ∀ t idx, idx ∈ ((add_index oi0 p.2 p.1).lookup t).getD [] →
          texts[idx]? = some t ∧ cache.lookup (h t) = none := by
        intro t idx hidx
        by_cases ht : t = p.2
        · subst ht
          rw [add_index_lookup_self] at hidx
          simp only [Option.getD_some] at hidx
          rcases List.mem_append.mp hidx with hidx | hidx
          · exact hsound _ idx hidx
          · rcases List.mem_singleton.mp hidx with rfl
            exact ⟨hps p (List.mem_cons_self _ _), hmiss⟩
        · rw [add_index_lookup_other oi0 p.2 t p.1 ht] at hidx
          exact hsound t idx hidx
      have hnd1 : ((add_index oi0 p.2 p.1).map Prod.fst).Nodup := by
        rw [add_index_keys]
        by_cases hoi : (oi0.lookup p.2).isSome = true
        · rw [if_pos hoi]
          exact hnd
        · rw [if_neg hoi]
          refine List.nodup_append.mpr ⟨hnd, by simp, ?_⟩
          intro a ha hb
          rcases List.mem_singleton.mp hb with rfl
          exact hoi (lookup_isSome_of_mem_keys oi0 _ ha)
      have hmissed1 : ∀ t ∈ (add_index oi0 p.2 p.1).map Prod.fst,
          cache.lookup (h t) = none := by
        intro t ht
        rw [add_index_keys] at ht
        by_cases hoi : (oi0.lookup p.2).isSome = true
        · rw [if_pos hoi] at ht
          exact hmissed t ht
        · rw [if_neg hoi] at ht
          rcases List.mem_append.mp ht with ht | ht
          · exact hmissed t ht
          · rcases List.mem_singleton.mp ht with rfl
            exact hmiss
      obtain ⟨c1, c2, c3, c4, c5⟩ := ih (add_index oi0 p.2 p.1) hsound1
        (fun p2 hp2 => hps p2 (List.mem_cons_of_mem _ hp2)) hnd1 hmissed1
      refine ⟨c1, ?_, ?_, c4, c5⟩
      · intro t idx hidx
        refine c2 t idx ?_
        by_cases ht : t = p.2
        · subst ht
          rw [add_index_lookup_self]
          simp only [Option.getD_some]
          exact List.mem_append.mpr (Or.inl hidx)
        · rw [add_index_lookup_other oi0 p.2 t p.1 ht]
          exact hidx
      · intro p2 hp2 hm
        rcases List.mem_cons.mp hp2 with hp2 | hp2
        · subst hp2
          refine c2 p2.2 p2.1 ?_
          rw [add_index_lookup_self]
          simp only [Option.getD_some]
          exact List.mem_append.mpr (Or.inr (List.mem_singleton.mpr rfl))
        · exact c3 p2 hp2 hm

theorem original_indices_spec (h : String → String) (cache : List (String × List ℚ))
    (texts : List String) :
    (∀ t idx, idx ∈ ((original_indices h cache texts).lookup t).getD [] →
      texts[idx]? = some t ∧ cache.lookup (h t) = none) ∧
    (∀ j t, texts[j]? = some t → cache.lookup (h t) = none →
      j ∈ ((original_indices h cache texts).lookup t).getD []) ∧
    ((original_indices h cache texts).map Prod.fst).Nodup ∧
    (∀ t ∈ (original_indices h cache texts).map Prod.fst,
      cache.lookup (h t) = none) := by
  have hps : ∀ p ∈ texts.enumFrom 0, texts[p.1]? = some p.2 := by
    intro p hp
    have := mem_enumFrom_spec texts 0 p hp
    simpa using this.2
  have hspec := oi_fold_spec h cache texts (texts.enumFrom 0) []
    (by intro t idx hidx; simp at hidx) hps (by simp) (by simp)
  refine ⟨hspec.1, ?_, hspec.2.2.2.1, hspec.2.2.2.2⟩
  intro j t hj hm
  have hmem : (0 + j, t) ∈ texts.enumFrom 0 := getElem_mem_enumFrom texts j 0 t hj
  rw [Nat.zero_add] at hmem
  exact hspec.2.2.1 (j, t) hmem hm

theorem foldl_set_length {X : Type} (v : X) :
    ∀ (idxs : List Nat) (f : List X),
      (idxs.foldl (fun f idx => f.set idx (v)) f).length = f.length := by
  intro idxs
  induction idxs with
  | nil => intro f; rfl
  | cons i rest ih =>
    intro f
    rw [List.foldl_cons, ih, List.length_set]

theorem foldl_set_getElem_notmem {X : Type} (v : X) :
    ∀ (idxs : List Nat) (f : List X) (j : Nat), j ∉ idxs →
      (idxs.foldl (fun f idx => f.set idx (v)) f)[j]? = f[j]? := by
  intro idxs
  induction idxs with
  | nil => intro f j _; rfl
  | cons i rest ih =>
    intro f j hj
    rw [List.foldl_cons, ih (f.set i (v)) j (fun hx => hj (List.mem_cons_of_mem _ hx))]
    have hij : i ≠ j := fun hx => hj (by rw [← hx]; exact List.mem_cons_self _ _)
    exact List.getElem?_set_ne hij

theorem foldl_set_getElem_mem {X : Type} (v : X) :
    ∀ (idxs : List Nat) (f : List X) (j : Nat), j ∈ idxs → j < f.length →
      (idxs.foldl (fun f idx => f.set idx (v)) f)[j]? = some v := by
  intro idxs
  induction idxs with
  | nil => intro f j hj _; cases hj
  | cons i rest ih =>
    intro f j hj hlen
    rw [List.foldl_cons]
    by_cases hr : j ∈ rest
    · exact ih (f.set i (v)) j hr (by rw [List.length_set]; exact hlen)
    · have hji : j = i := (List.mem_cons.mp hj).resolve_right hr
      subst hji
      rw [foldl_set_getElem_notmem (v) rest (f.set j (v)) j hr]
      exact List.getElem?_set_self hlen

theorem all_some_eq_some_iff :
    ∀ (l : List (Option (List ℚ))) (v : List (List ℚ)),
      all_some l = some v ↔ l = v.map some := by
  intro l
  induction l with
  | nil =>
    intro v
    constructor
    · intro hv
      rw [all_some] at hv
      injection hv with hv
      rw [← hv]
      rfl
    · intro hv
      cases v with
      | nil => rfl
      | cons x w => rw [List.map_cons] at hv; cases hv
  | cons o rest ih =>
    intro v
    cases o with
    | none =>
      rw [all_some]
      constructor
      · intro hv; cases hv
      · intro hv
        cases v with
        | nil => rw [List.map_nil] at hv; cases hv
        | cons x w =>
          rw [List.map_cons] at hv
          cases hv
    | some x =>
      rw [all_some]
      constructor
      · intro hv
        obtain ⟨w, hw, hv2⟩ := Option.map_eq_some'.mp hv
        rw [← hv2, List.map_cons]
        rw [(ih w).mp hw]
      · intro hv
        cases v with
        | nil => rw [List.map_nil] at hv; cases hv
        | cons y w =>
          rw [List.map_cons] at hv
          injection hv with h1 h2
          injection h1 with h1
          subst h1
          rw [(ih w).mpr h2]
          rfl

theorem get_embeddings_unfold (h : String → String) (req : Nat → Nat → FetchOutcome)
    (cache : List (String × List ℚ)) (texts : List String) (bs mr dim : Nat) :
    get_embeddings h req cache texts bs mr dim =
      (if ((original_indices h cache texts).map Prod.fst).isEmpty then
        match all_some (texts.map (fun t => cache.lookup (h t))) with
        | none => .error ()
        | some out =>
          .ok (out, cache,
            ⟨0, (texts.filter (fun t => (cache.lookup (h t)).isSome)).length,
             texts.length - (texts.filter (fun t => (cache.lookup (h t)).isSome)).length,
             0⟩)
      else
        match fetch_embeddings req ((original_indices h cache texts).map Prod.fst)
            bs mr dim with
        | .error e => .error e
        | .ok (new_embeddings, calls, toks) =>
          match fill_loop (original_indices h cache texts) new_embeddings h cache
              (texts.map (fun t => cache.lookup (h t)))
              (((original_indices h cache texts).map Prod.fst).enum) with
          | .error e => .error e
          | .ok (cache2, final2) =>
            match all_some final2 with
            | none => .error ()
            | some out =>
              .ok (out, cache2,
                ⟨calls, (texts.filter (fun t => (cache.lookup (h t)).isSome)).length,
                 texts.length -
                   (texts.filter (fun t => (cache.lookup (h t)).isSome)).length,
                 toks⟩)) := rfl

theorem fill_loop_char (h : String → String) (hinj : Function.Injective h)
    (texts : List String) (cache0 : List (String × List ℚ))
    (oi : List (String × List Nat)) (ne : List (List ℚ))
    (hO1 : ∀ t idx, idx ∈ (oi.lookup t).getD [] → texts[idx]? = some t)
    (hO2 : ∀ j t, texts[j]? = some t → cache0.lookup (h t) = none →
      j ∈ (oi.lookup t).getD []) :
    ∀ (rest : List (Nat × String)) (cacheK : List (String × List ℚ))
      (finalK : List (Option (List ℚ))) (cache2 : List (String × List ℚ))
      (final2 : List (Option (List ℚ))),
      (∀ p ∈ rest, cache0.lookup (h p.2) = none) →
      texts.map (fun t => cacheK.lookup (h t)) = finalK →
      fill_loop oi ne h cacheK finalK rest = .ok (cache2, final2) →
      texts.map (fun t => cache2.lookup (h t)) = final2 := by
  intro rest
  induction rest with
  | nil =>
    intro cacheK finalK cache2 final2 _ hchar hfl
    simp only [fill_loop] at hfl
    injection hfl with hfl
    injection hfl with h1 h2
    rw [← h1, ← h2]
    exact hchar
  | cons pr rest ih =>
    intro cacheK finalK cache2 final2 hmiss hchar hfl
    obtain ⟨i, t⟩ := pr
    simp only [fill_loop] at hfl
    cases hne : ne[i]? with
    | none => rw [hne] at hfl; cases hfl
    | some emb =>
      rw [hne] at hfl
      refine ih (insert_assoc cacheK (h t) emb) _ cache2 final2
        (fun p hp => hmiss p (List.mem_cons_of_mem _ hp)) ?_ hfl
      have hlen : finalK.length = texts.length := by
        rw [← hchar, List.length_map]
      refine List.ext_getElem? ?_
      intro j
      rw [List.getElem?_map]
      by_cases hjl : j < texts.length
      · have hu : texts[j]? = some texts[j] := List.getElem?_eq_getElem hjl
        rw [hu]
        simp only [Option.map_some']
        by_cases hut : texts[j] = t
        · rw [hut, insert_assoc_lookup_self]
          have hpos : j ∈ (oi.lookup t).getD [] := by
            refine hO2 j t ?_ (hmiss (i, t) (List.mem_cons_self _ _))
            rw [hu, hut]
          rw [foldl_set_getElem_mem (some emb) _ _ j hpos
            (by rw [hlen]; exact hjl)]
        · have hne2 : h texts[j] ≠ h t := fun hx => hut (hinj hx)
          rw [insert_assoc_lookup_other cacheK (h t) (h texts[j]) emb hne2]
          have hnot : j ∉ (oi.lookup t).getD [] := by
            intro hx
            have hsome := hO1 t j hx
            rw [hu] at hsome
            injection hsome with hsome
            exact hut hsome
          rw [foldl_set_getElem_notmem (some emb) _ _ j hnot]
          rw [← hchar, List.getElem?_map, hu]
          rfl
      · have hnone : texts[j]? = none := List.getElem?_eq_none (le_of_not_lt hjl)
        rw [hnone]
        simp only [Option.map_none']
        symm
        refine List.getElem?_eq_none ?_
        rw [foldl_set_length, hlen]
        exact le_of_not_lt hjl

theorem get_embeddings_char (h : String → String) (hinj : Function.Injective h)
    (req : Nat → Nat → FetchOutcome) (cache : List (String × List ℚ))
    (texts : List String) (bs mr dim : Nat) (out : List (List ℚ))
    (cache1 : List (String × List ℚ)) (st1 : EmbStats)
    (hok : get_embeddings h req cache texts bs mr dim = .ok (out, cache1, st1)) :
    texts.map (fun t => cache1.lookup (h t)) = out.map some := by
  rw [get_embeddings_unfold] at hok
  by_cases hemp : ((original_indices h cache texts).map Prod.fst).isEmpty = true
  · rw [if_pos hemp] at hok
    cases hsome : all_some (texts.map (fun t => cache.lookup (h t))) with
    | none => rw [hsome] at hok; cases hok
    | some out2 =>
      rw [hsome] at hok
      injection hok with hok
      have h1 : out2 = out := congrArg Prod.fst hok
      have h2 : cache = cache1 := congrArg (fun p => p.2.1) hok
      rw [← h2, ← h1]
      exact (all_some_eq_some_iff _ _).mp hsome
  · rw [if_neg hemp] at hok
    cases hfetch : fetch_embeddings req ((original_indices h cache texts).map Prod.fst)
        bs mr dim with
    | error e => rw [hfetch] at hok; cases hok
    | ok trip =>
      obtain ⟨ne2, calls, toks⟩ := trip
      rw [hfetch] at hok
      simp only [] at hok
      cases hfill : fill_loop (original_indices h cache texts) ne2 h cache
          (texts.map (fun t => cache.lookup (h t)))
          (((original_indices h cache texts).map Prod.fst).enum) with
      | error e => rw [hfill] at hok; cases hok
      | ok pr =>
        obtain ⟨cache2, final2⟩ := pr
        rw [hfill] at hok
        simp only [] at hok
        cases hsome : all_some final2 with
        | none => rw [hsome] at hok; cases hok
        | some out2 =>
          rw [hsome] at hok
          injection hok with hok
          have h1 : out2 = out := congrArg Prod.fst hok
          have h2 : cache2 = cache1 := congrArg (fun p => p.2.1) hok
          obtain ⟨o1, o2, _, o4⟩ := original_indices_spec h cache texts
          have hrest : ∀ p ∈ (((original_indices h cache texts).map Prod.fst).enum),
              cache.lookup (h p.2) = none := by
            intro p hp
            have hspec := mem_enumFrom_spec
              ((original_indices h cache texts).map Prod.fst) 0 p hp
            have hmem : p.2 ∈ (original_indices h cache texts).map Prod.fst := by
              have := hspec.2
              rw [Nat.sub_zero] at this
              exact List.getElem?_mem this
            exact o4 p.2 hmem
          have hchar2 := fill_loop_char h hinj texts cache
            (original_indices h cache texts) ne2
            (fun t idx hidx => (o1 t idx hidx).1) o2
            (((original_indices h cache texts).map Prod.fst).enum)
            cache (texts.map (fun t => cache.lookup (h t))) cache2 final2
            hrest rfl hfill
          rw [← h2, ← h1]
          rw [hchar2]
          exact (all_some_eq_some_iff _ _).mp hsome

theorem oi_fold_all_hits (h : String → String) (cache1 : List (String × List ℚ)) :
    ∀ (ps : List (Nat × String)),
      (∀ p ∈ ps, (cache1.lookup (h p.2)).isSome = true) →
      ps.foldl
        (fun oi p => if (cache1.lookup (h p.2)).isSome then oi else add_index oi p.2 p.1)
        [] = [] := by
  intro ps
  induction ps with
  | nil => intro _; rfl
  | cons p rest ih =>
    intro hall
    simp only [List.foldl_cons]
    rw [if_pos (hall p (List.mem_cons_self _ _))]
    exact ih (fun p2 hp2 => hall p2 (List.mem_cons_of_mem _ hp2))

/-- C9: with a collision-free content hash, if `get_embeddings` succeeds then
calling it again on the saved cache with the same ordered text list (and the
same model, represented by the same cache) returns the identical vectors, the
unchanged cache, and statistics showing zero remote batches (hence at most the
first call's `api_calls`), all cache hits and no misses — regardless of the
request oracle, since nothing is fetched; moreover the deduplicated fetch
list of the first call contains each distinct missing text exactly once, and
positions holding equal texts receive equal vectors. -/
theorem c9_cache_idempotence (h : String → String) (req req2 : Nat → Nat → FetchOutcome)
    (cache : List (String × List ℚ)) (texts : List String) (bs mr dim : Nat)
    (out : List (List ℚ)) (cache1 : List (String × List ℚ)) (st1 : EmbStats)
    (hinj : Function.Injective h)
    (hok : get_embeddings h req cache texts bs mr dim = .ok (out, cache1, st1)) :
    get_embeddings h req2 cache1 texts bs mr dim =
      .ok (out, cache1, ⟨0, texts.length, 0, 0⟩) ∧
    (0 ≤ st1.api_calls) ∧
    (texts_to_fetch_of h cache texts).Nodup ∧
    (∀ i j : Nat, texts[i]? = texts[j]? → out[i]? = out[j]?) := by
  have hchar := get_embeddings_char h hinj req cache texts bs mr dim out cache1 st1 hok
  have hlen : texts.length = out.length := by
    have := congrArg List.length hchar
    simpa using this
  have hAll : ∀ t ∈ texts, (cache1.lookup (h t)).isSome = true := by
    intro t ht
    obtain ⟨j, hj⟩ := List.mem_iff_getElem?.mp ht
    have hcong := congrArg (fun l => l[j]?) hchar
    simp only [List.getElem?_map, hj] at hcong
    cases ho : out[j]? with
    | none => rw [ho] at hcong; simp at hcong
    | some v => rw [ho] at hcong; simp at hcong; rw [hcong]; rfl
  refine ⟨?_, Nat.zero_le _, ?_, ?_⟩
  · have hoi2 : original_indices h cache1 texts = [] := by
      rw [original_indices]
      refine oi_fold_all_hits h cache1 texts.enum ?_
      intro p hp
      have hspec := mem_enumFrom_spec texts 0 p hp
      have hmem : p.2 ∈ texts := by
        have := hspec.2
        rw [Nat.sub_zero] at this
        exact List.getElem?_mem this
      exact hAll p.2 hmem
    have hfilter : texts.filter (fun t => (cache1.lookup (h t)).isSome) = texts :=
      List.filter_eq_self.mpr hAll
    rw [get_embeddings_unfold, hoi2]
    simp only [List.map_nil, List.isEmpty_nil, if_true]
    rw [hchar, (all_some_eq_some_iff (out.map some) out).mpr rfl]
    rw [hfilter]
    simp [Nat.sub_self]
  · exact (original_indices_spec h cache texts).2.2.1
  · intro i j hij
    have hi := congrArg (fun l => l[i]?) hchar
    have hj := congrArg (fun l => l[j]?) hchar
    simp only [List.getElem?_map] at hi hj
    rw [hij] at hi
    rw [hj] at hi
    cases hoi : out[i]? with
    | none =>
      rw [hoi] at hi
      cases hoj : out[j]? with
      | none => rfl
      | some w => rw [hoj] at hi; simp at hi
    | some v =>
      rw [hoi] at hi
      cases hoj : out[j]? with
      | none => rw [hoj] at hi; simp at hi
      | some w =>
        rw [hoj] at hi
        simp only [Option.map_some'] at hi
        injection hi with hi
        injection hi with hi
        rw [hi]

/-- C9 (witness): a concrete first call over texts `["a", "b", "a"]` with the
identity hash and an oracle returning two vectors: the theorem applies and
yields the second call's result, the deduplicated fetch list, and equal
vectors at the duplicate positions. -/
theorem c9_cache_idempotence_witness :
    get_embeddings id req_ok_two [] ["a", "b", "a"] 32 5 1 =
      .ok ([[1], [2], [1]], [("a", [1]), ("b", [2])], ⟨1, 0, 3, 2⟩) ∧
    get_embeddings id req_fail [("a", [1]), ("b", [2])] ["a", "b", "a"] 32 5 1 =
      .ok ([[1], [2], [1]], [("a", [1]), ("b", [2])], ⟨0, 3, 0, 0⟩) ∧
    (texts_to_fetch_of id [] ["a", "b", "a"]).Nodup := by
  have hok : get_embeddings id req_ok_two [] ["a", "b", "a"] 32 5 1 =
      .ok ([[1], [2], [1]], [("a", [1]), ("b", [2])], ⟨1, 0, 3, 2⟩) := by rfl
  have hc := c9_cache_idempotence id req_ok_two req_fail [] ["a", "b", "a"] 32 5 1
    [[1], [2], [1]] [("a", [1]), ("b", [2])] ⟨1, 0, 3, 2⟩ (fun a b hab => hab) hok
  exact ⟨hok, hc.1, hc.2.2.1⟩

end Eora
